import Mathlib

/-!
# AnkiLevels — verification of the highlight pipeline

Shallow embedding of the AnkiLevels browser extension (word highlighting by
Anki difficulty score) and proofs about the spec's claims.

Sources embedded here:
* `src/entrypoints/background.ts` — score provider sync (`fetchJapaneseCards`,
  `syncWithAnki`) and card-score computation;
* `src/entrypoints/popup/main.ts` (content script) — `getDifficultyColor`,
  the match scan, overlap grouping, layer assignment, fragment rendering,
  batch scheduler and mutation observer;
* `src/unnamed/part_002` — the revision of the content script whose match
  scan skips occurrences already covered by an accepted longer match.

Text is modelled as `List Char`, JS numbers as `ℚ`, JS `-1`-or-index results
as `Option Nat`, and fallible/possibly-divergent loops take explicit fuel and
return `Option` (`none` = the loop did not reach its exit condition within the
fuel).
-/

/-- JS `Math.round`: round half toward positive infinity. -/
def jsRound (x : ℚ) : ℤ := Int.floor (x + 1/2)

/-- `getDifficultyColor` (content script): red 255·(1−level/100), green
255·(level/100), blue 0, producing the `rgb(r, g, 0)` string. -/
def getDifficultyColor (level : ℚ) : String :=
  let red := jsRound (255 * (1 - level / 100))
  let green := jsRound (255 * (level / 100))
  "rgb(" ++ toString red ++ ", " ++ toString green ++ ", 0)"

/-- The spec's visual contract, transcribed from its own words:
`color(score) = rgb(round(255*(1-score/100)), round(255*(score/100)), 0)`. -/
def specColorFormula (score : ℚ) : String :=
  "rgb(" ++ toString (jsRound (255 * (1 - score / 100))) ++ ", " ++
    toString (jsRound (255 * (score / 100))) ++ ", 0)"

/-- A word→score mapping: association list of (word, difficultyLevel). -/
abbrev WordMap := List (List Char × ℚ)

/-- Background-page state: the in-memory `cachedWords` (`null` before first
load) and the persistent IndexedDB store contents (`db.saveWords` clears the
store and writes the whole map). -/
structure BackgroundState where
  cachedWords : Option WordMap
  dbWords : WordMap
  isSyncing : Bool
deriving DecidableEq, Repr

/-- `fetchJapaneseCards` error handling (background.ts lines 136–218): the
whole body is one `try`/`catch`, and the `catch` arm returns `new Map()`.
`outcome` is the result of the fetch/AnkiConnect interaction: `ok m` when the
service answered and `m` is the computed map, `error` when the fetch rejected
or the service was unreachable. -/
def fetchJapaneseCards (outcome : Except Unit WordMap) : WordMap :=
  match outcome with
  | .ok m => m
  | .error _ => []

/-- `syncWithAnki` (background.ts lines 226–242): guarded by `isSyncing`;
otherwise sets `cachedWords` to the fetch result and persists it with
`db.saveWords` (clear + put all). `fetchJapaneseCards` never throws (it
catches internally), so the `catch` in `syncWithAnki` is unreachable for
fetch failures and the assignment always runs. -/
def syncWithAnki (outcome : Except Unit WordMap) (s : BackgroundState) :
    BackgroundState :=
  if s.isSyncing then s
  else
    let words := fetchJapaneseCards outcome
    { cachedWords := some words, dbWords := words, isSyncing := false }

/-! ## Incremental scheduler (content script `processBatch`, lines 150–158
and 321–332)

`performance.now()` is an oracle `now : Nat → ℤ` (milliseconds) giving the
value returned by
the k-th call. One batch computes `end = min (processed + batchSize) n`,
takes `deadline = now k + 8`, then loops `i` from `processed`, checking the
clock before each unit and breaking once `deadline ≤ now`. After the loop the
code sets `processed = end` unconditionally. -/

/-- The `for` loop inside `processBatch`: returns (next clock index, indices
of text units actually visited). `fuel` is `end − i`. -/
def batchLoop (now : Nat → ℤ) (deadline : ℤ) :
    Nat → Nat → Nat → List Nat → Nat × List Nat
  | 0, _, k, acc => (k, acc)
  | fuel + 1, i, k, acc =>
    if deadline ≤ now k then (k + 1, acc)
    else batchLoop now deadline fuel (i + 1) (k + 1) (acc ++ [i])

/-- One `processBatch` call: returns (new `processed`, next clock index,
visited indices). Mirrors the source: the new `processed` is `end`, whether
or not the loop broke early on the deadline. -/
def processBatchModel (now : Nat → ℤ) (n batchSize processed k : Nat) :
    Nat × Nat × List Nat :=
  let endI := min (processed + batchSize) n
  let deadline := now k + 8
  let r := batchLoop now deadline (endI - processed) processed (k + 1) []
  (endI, r.1, r.2)

/-- A full pass: `processBatch` reschedules itself while `processed < n`.
`fuel` bounds the number of batches (`n + 1` always suffices since
`processed` advances by `batchSize ≥ 1` per batch). Returns all indices
visited during the pass. -/
def runPassAux (now : Nat → ℤ) (n batchSize : Nat) :
    Nat → Nat → Nat → List Nat → List Nat
  | 0, _, _, acc => acc
  | fuel + 1, processed, k, acc =>
    if n ≤ processed then acc
    else
      let r := processBatchModel now n batchSize processed k
      runPassAux now n batchSize fuel r.1 r.2.1 (acc ++ r.2.2)

/-- All text-unit indices visited by one pass over `n` units. -/
def runPass (now : Nat → ℤ) (n batchSize : Nat) : List Nat :=
  runPassAux now n batchSize (n + 1) 0 0 []

/-- Clock oracle for the deadline counterexample: the deadline computation
reads 0, the first in-loop check reads 1, the second reads 9 (past the
`0 + 8` deadline). -/
def exNow : Nat → ℤ := fun k => if k = 0 then 0 else if k = 1 then 1 else 9

/-! ## Mutation observer and debounce (content script lines 113–115, 339–362) -/

/-- Content-script scheduler state: the `isHighlighting` flag and the pending
debounce timer (`mutationTimeout`), recorded as the absolute time at which the
`setTimeout(·, 300)` callback would fire. -/
structure ContentState where
  isHighlighting : Bool
  mutationTimeout : Option ℤ
deriving DecidableEq, Repr

/-- The `MutationObserver` callback at time `τ`: if some added node is an
element (`hasElementInsertion`) and `!isHighlighting`, clear any pending
timer and set a fresh 300 ms debounce; otherwise do nothing at all. -/
def onMutations (s : ContentState) (hasElementInsertion : Bool) (τ : ℤ) :
    ContentState :=
  if hasElementInsertion && !s.isHighlighting then
    { s with mutationTimeout := some (τ + 300) }
  else s

/-- End of a pass (`processBatch` final branch): `isHighlighting = false`. -/
def passEnd (s : ContentState) : ContentState :=
  { s with isHighlighting := false }

/-- The debounce timer firing: `mutationTimeout = null`, then
`highlightWords(true)`, which returns immediately when `isHighlighting` is
set or the word map is empty. The returned `Bool` is whether a highlight pass
actually started. -/
def timerFire (s : ContentState) (wordsNonempty : Bool) : ContentState × Bool :=
  ({ s with mutationTimeout := none }, !s.isHighlighting && wordsNonempty)


/-! ## Match engine (content script `highlightWords`)

The scan enumerates occurrences with JS `indexOf`, whose `-1` result is
`Option.none` here. The `while (index !== -1)` loop takes explicit fuel
(`t.length + 2` suffices for every non-empty word); running out of fuel
returns `none`, which models the loop not reaching its exit condition (the
JS loop never terminates for an empty word). -/

/-- One verbatim occurrence of one word inside one text unit; `score` is the
`WordData.difficultyLevel` payload carried alongside. The source pushes
`{ index, length: word.length, data, word }`. -/
structure RawMatch where
  index : Nat
  length : Nat
  word : List Char
  score : ℚ
deriving DecidableEq, Repr

/-- `w` occurs verbatim in `t` at position `i`. -/
def occursAt (t w : List Char) (i : Nat) : Bool :=
  decide ((t.drop i).take w.length = w)

/-- Linear candidate scan for the first occurrence at position ≥ `i`;
`fuel` is the number of candidate positions left to try. -/
def indexOfFromAux (t w : List Char) : Nat → Nat → Option Nat
  | 0, _ => none
  | fuel + 1, i =>
    if occursAt t w i then some i else indexOfFromAux t w fuel (i + 1)

/-- JS `t.indexOf(w, p)` with `none` for `-1`: the start position is clamped
to `[0, t.length]`, and the empty word is always found at the clamped
position. -/
def indexOfFrom (t w : List Char) (p : Nat) : Option Nat :=
  indexOfFromAux t w (t.length + 1 - min p t.length) (min p t.length)

/-- JS `t.includes(w)`. -/
def jsContains (t w : List Char) : Bool :=
  (indexOfFrom t w 0).isSome

/-- `index >= m.index && index < m.index + m.length` for one accepted match. -/
def coveredBy (m : RawMatch) (i : Nat) : Bool :=
  decide (m.index ≤ i) && decide (i < m.index + m.length)

/-- `matches.some((m) => index >= m.index && index < m.index + m.length)` —
the covered-position check of the `src/unnamed/part_002` revision. -/
def isCovered (acc : List RawMatch) (i : Nat) : Bool :=
  acc.any (fun m => coveredBy m i)

/-- The `while (index !== -1)` occurrence loop for one word. With
`cover = false` (current `main.ts` revision) every occurrence is pushed; with
`cover = true` (`src/unnamed/part_002` revision) an occurrence whose start is
already covered by an accepted match is skipped. `none` = fuel exhausted
before the loop exited. -/
def scanLoop (cover : Bool) (t w : List Char) (score : ℚ) :
    Nat → Option Nat → List RawMatch → Option (List RawMatch)
  | 0, _, _ => none
  | _ + 1, none, acc => some acc
  | fuel + 1, some i, acc =>
    let acc2 := if cover && isCovered acc i then acc
                else acc ++ [⟨i, w.length, w, score⟩]
    scanLoop cover t w score fuel (indexOfFrom t w (i + 1)) acc2

/-- Per-word body of the scan: `if (!text.includes(word)) continue;` then the
occurrence loop starting at `text.indexOf(word)`. -/
def scanWord (cover : Bool) (t w : List Char) (score : ℚ)
    (acc : List RawMatch) : Option (List RawMatch) :=
  if jsContains t w then scanLoop cover t w score (t.length + 2) (indexOfFrom t w 0) acc
  else some acc

/-- Order used for `sortedWords`: descending word length
(`(a, b) => b[0].length - a[0].length`, a stable sort). -/
abbrev wordLE (a b : List Char × ℚ) : Prop :=
  b.1.length ≤ a.1.length

instance : IsTotal (List Char × ℚ) wordLE :=
  ⟨fun a b => Nat.le_total b.1.length a.1.length⟩

instance : IsTrans (List Char × ℚ) wordLE :=
  ⟨fun _ _ _ h1 h2 => Nat.le_trans h2 h1⟩

/-- The whole match scan of `highlightWords`: words sorted longest-first,
each scanned left-to-right over the unit's text. -/
def findMatches (cover : Bool) (map : WordMap) (t : List Char) :
    Option (List RawMatch) :=
  (List.insertionSort wordLE map).foldlM
    (fun acc p => scanWord cover t p.1 p.2 acc) []

/-- Order used for `matches.sort`: ascending index, ties by descending
length (`a.index - b.index`, then `b.length - a.length`; stable). -/
abbrev matchLE (a b : RawMatch) : Prop :=
  a.index < b.index ∨ (a.index = b.index ∧ b.length ≤ a.length)

instance : IsTotal RawMatch matchLE := by
  constructor
  intro a b
  rcases Nat.lt_trichotomy a.index b.index with h | h | h
  · exact Or.inl (Or.inl h)
  · rcases Nat.le_total b.length a.length with h2 | h2
    · exact Or.inl (Or.inr ⟨h, h2⟩)
    · exact Or.inr (Or.inr ⟨h.symm, h2⟩)
  · exact Or.inr (Or.inl h)

instance : IsTrans RawMatch matchLE := by
  constructor
  rintro a b c (h1 | ⟨h1, h1l⟩) (h2 | ⟨h2, h2l⟩)
  · exact Or.inl (Nat.lt_trans h1 h2)
  · exact Or.inl (h2 ▸ h1)
  · exact Or.inl (h1 ▸ h2)
  · exact Or.inr ⟨h1.trans h2, h2l.trans h1l⟩

/-- `matches.sort(...)` of the content script. -/
def sortMatches (ms : List RawMatch) : List RawMatch :=
  List.insertionSort matchLE ms

/-! ## Overlap resolver (current `main.ts` revision, grouping) -/

/-- A `finalMatches` entry of the grouping revision: the spread fields of the
creating match (`{...match, overlapping: [match]}`) plus the `overlapping`
member list. The spread fields are never updated afterwards. -/
structure MatchGroup where
  index : Nat
  length : Nat
  word : List Char
  score : ℚ
  overlapping : List RawMatch
deriving DecidableEq, Repr

/-- The `finalMatches.find(...)` predicate:
`(match.index >= existing.index && match.index < existing.index + existing.length) ||
 (match.index + match.length > existing.index && match.index < existing.index)`. -/
def groupTest (m : RawMatch) (g : MatchGroup) : Bool :=
  (decide (g.index ≤ m.index) && decide (m.index < g.index + g.length)) ||
  (decide (g.index < m.index + m.length) && decide (m.index < g.index))

/-- `{...match, overlapping: [match]}`. -/
def mkGroup (m : RawMatch) : MatchGroup :=
  ⟨m.index, m.length, m.word, m.score, [m]⟩

/-- The primary (spread) fields of a group, as a `RawMatch`. -/
def primOf (g : MatchGroup) : RawMatch :=
  ⟨g.index, g.length, g.word, g.score⟩

/-- Process one match: push it into the first group the `find` predicate
accepts, else append a fresh group. -/
def addToGroups : List MatchGroup → RawMatch → List MatchGroup
  | [], m => [mkGroup m]
  | g :: gs, m =>
    if groupTest m g then
      ⟨g.index, g.length, g.word, g.score, g.overlapping ++ [m]⟩ :: gs
    else g :: addToGroups gs m

/-- The grouping loop over the sorted matches. -/
def buildGroups (ms : List RawMatch) : List MatchGroup :=
  ms.foldl addToGroups []

/-- The spec's overlap notion: `[start, start+length)` intervals intersect. -/
def rawOverlap (a b : RawMatch) : Bool :=
  decide (a.index < b.index + b.length) && decide (b.index < a.index + a.length)

/-! ## Overlap resolver (`src/unnamed/part_002` revision, drop overlaps) -/

/-- The `finalMatches.some(...)` overlap predicate of the dropping revision
(same formula as `groupTest`, against a kept match). -/
def overlapTest (m e : RawMatch) : Bool :=
  (decide (e.index ≤ m.index) && decide (m.index < e.index + e.length)) ||
  (decide (e.index < m.index + m.length) && decide (m.index < e.index))

/-- `finalMatches.some((existing) => ...)`. -/
def hasOverlapB (kept : List RawMatch) (m : RawMatch) : Bool :=
  kept.any (overlapTest m)

/-- The dedup loop of the dropping revision: keep a match only if it overlaps
no already-kept match. -/
def finalMatchesP2 (ms : List RawMatch) : List RawMatch :=
  ms.foldl (fun kept m => if hasOverlapB kept m then kept else kept ++ [m]) []

/-- The `part_002` pipeline for one text unit: covered-position scan, sort,
overlap dedup. Each surviving match is rendered as its own highlight span
(its own group, span `[index, index + length)`, primary itself). -/
def processP2 (map : WordMap) (t : List Char) : Option (List RawMatch) :=
  (findMatches true map t).map (fun ms => finalMatchesP2 (sortMatches ms))

/-! ## Layer assignment (current `main.ts`, lines 240–264) -/

/-- The stacking overlap check of the layering loop, which measures spans by
`word.length`: `!(mEnd <= other.index || m.index >= otherEnd)`. -/
def overlapsWordB (m other : RawMatch) : Bool :=
  !(decide (m.index + m.word.length ≤ other.index) ||
    decide (other.index + other.word.length ≤ m.index))

/-- Level `L` is free for `m` w.r.t. the already-assigned pairs: no previous
match on layer `L` overlaps `m`. -/
def levelOk (prev : List (RawMatch × Nat)) (m : RawMatch) (L : Nat) : Bool :=
  prev.all (fun p => !(decide (p.2 = L) && overlapsWordB m p.1))

/-- Largest level already assigned (0 when none). -/
def maxLevel (prev : List (RawMatch × Nat)) : Nat :=
  prev.foldr (fun p acc => max p.2 acc) 0

/-- The `while (true) { ...; level++ }` search for the lowest free level,
with fuel (≥ `maxLevel prev + 2` always finds a free level first). -/
def findLevelFrom (prev : List (RawMatch × Nat)) (m : RawMatch) :
    Nat → Nat → Nat
  | 0, L => L
  | fuel + 1, L => if levelOk prev m L then L else findLevelFrom prev m fuel (L + 1)

/-- Lowest level free for `m` given the already-assigned pairs. -/
def findLevel (prev : List (RawMatch × Nat)) (m : RawMatch) : Nat :=
  findLevelFrom prev m (maxLevel prev + 2) 0

/-- The greedy layering over `match.overlapping` in order: each member is
paired with the lowest level free w.r.t. all previously assigned members. -/
def assignPairs (ms : List RawMatch) : List (RawMatch × Nat) :=
  ms.foldl (fun prev m => prev ++ [(m, findLevel prev m)]) []

/-- The `levels` array of the source. -/
def assignLevels (ms : List RawMatch) : List Nat :=
  (assignPairs ms).map Prod.snd

/-! ## DOM renderer (fragment building, current `main.ts` lines 206–318) -/

/-- One node appended to the replacement fragment: a plain text node, or a
highlight `span` with class `anki-highlight` whose displayed text is the
group's primary word (the absolutely-positioned underline children add no
text). -/
inductive Seg where
  | plain : List Char → Seg
  | highlight : MatchGroup → Seg
deriving DecidableEq, Repr

/-- Displayed text of a fragment node. -/
def segText : Seg → List Char
  | .plain s => s
  | .highlight g => g.word

/-- Whether the node (or its text) carries the `anki-highlight` marker that
excludes it from the next pass's tree walk. -/
def marked : Seg → Bool
  | .plain _ => false
  | .highlight _ => true

/-- `text.substring(a, b)` for `a ≤ b`. -/
def jsSubstring (t : List Char) (a b : Nat) : List Char :=
  (t.drop a).take (b - a)

/-- Fragment construction from `lastIndex` over the remaining groups:
text before each group (`if (match.index > lastIndex)`), the highlight span,
then the tail text (`if (lastIndex < text.length)`). -/
def renderFrom (t : List Char) : Nat → List MatchGroup → List Seg
  | last, [] => if last < t.length then [Seg.plain (t.drop last)] else []
  | last, g :: gs =>
    (if last < g.index then [Seg.plain (jsSubstring t last g.index)] else []) ++
      (Seg.highlight g :: renderFrom t (g.index + g.length) gs)

/-- Concatenated displayed text of a fragment. -/
def flattenSegs (segs : List Seg) : List Char :=
  segs.foldr (fun s acc => segText s ++ acc) []

/-- `!text.trim()`: the unit's text is empty or all whitespace. -/
def jsBlank (t : List Char) : Bool :=
  t.all Char.isWhitespace

/-- One text unit through the current `main.ts` pipeline. Outer `none` = the
scan did not terminate; `some none` = unit left untouched (blank, or no
matches); `some (some segs)` = unit replaced by the fragment `segs`. -/
def processUnitMain (map : WordMap) (t : List Char) : Option (Option (List Seg)) :=
  if jsBlank t then some none
  else
    (findMatches false map t).map (fun ms =>
      if ms = [] then none
      else
        let fin := buildGroups (sortMatches ms)
        if fin = [] then none else some (renderFrom t 0 fin))

/-! ## Score provider: card statistics → difficulty level
(background.ts lines 171–212) -/

/-- The difficulty-level formula: interval-based base score, lapse penalty,
review bonus, clamped to `[0, 100]`. -/
def cardScore (interval lapses reps : ℚ) : ℚ :=
  let intervalScore : ℚ :=
    if 180 ≤ interval then 90 + min ((interval - 180) / 365) 1 * 10
    else if 90 ≤ interval then 75 + (interval - 90) / 90 * 15
    else if 21 ≤ interval then 50 + (interval - 21) / 69 * 25
    else if 7 ≤ interval then 30 + (interval - 7) / 14 * 20
    else if 1 ≤ interval then 10 + (interval - 1) / 6 * 20
    else 0
  let lapsesScore : ℚ := -(min (lapses * 5) 25)
  let repsBonus : ℚ := if 0 < reps then min (reps * 2) 10 else 0
  max 0 (min 100 (intervalScore + lapsesScore + repsBonus))

/-- JS `Map.prototype.set`: replace in place if the key exists, else append. -/
def mapSet (m : WordMap) (k : List Char) (v : ℚ) : WordMap :=
  if m.any (fun p => p.1 = k) then
    m.map (fun p => if p.1 = k then (k, v) else p)
  else m ++ [(k, v)]

/-- A card as the score computation sees it: the `Expression` field value
(`none` when the field is missing) and the numeric stats after the `|| 0`
defaulting. -/
structure CardInfo where
  expression : Option (List Char)
  interval : ℚ
  lapses : ℚ
  reps : ℚ

/-- One step of the `allCardsInfo.forEach` accumulation of
`fetchJapaneseCards`: skip a card when `!expression` (missing or empty
string), else set the word's difficulty level. -/
def addCard (acc : WordMap) (c : CardInfo) : WordMap :=
  match c.expression with
  | none => acc
  | some e =>
    if e = [] then acc else mapSet acc e (cardScore c.interval c.lapses c.reps)

/-- The mapping built by `fetchJapaneseCards` from the fetched card list. -/
def buildWordMap (cards : List CardInfo) : WordMap :=
  cards.foldl addCard []

/-! # Theorems -/

/-- Evaluate `jsRound` by bracketing `x + 1/2` between `n` and `n + 1`. -/
theorem jsRound_eq (x : ℚ) (n : ℤ) (h1 : (n : ℚ) ≤ x + 1/2)
    (h2 : x + 1/2 < n + 1) : jsRound x = n := by
  rw [jsRound]
  exact Int.floor_eq_iff.mpr ⟨h1, h2⟩

/-- **C10.** For every score, the decoration color equals the spec's formula
`rgb(round(255*(1-s/100)), round(255*(s/100)), 0)`; in particular score 0
yields `rgb(255, 0, 0)`, score 100 yields `rgb(0, 255, 0)` and score 50
yields `rgb(128, 128, 0)`. -/
theorem claim_C10_difficulty_color :
    (∀ s : ℚ, getDifficultyColor s = specColorFormula s) ∧
    getDifficultyColor 0 = "rgb(255, 0, 0)" ∧
    getDifficultyColor 100 = "rgb(0, 255, 0)" ∧
    getDifficultyColor 50 = "rgb(128, 128, 0)" := by
  refine ⟨fun s => rfl, ?_, ?_, ?_⟩
  · simp only [getDifficultyColor]
    rw [jsRound_eq (255 * (1 - 0 / 100)) 255 (by norm_num) (by norm_num),
      jsRound_eq (255 * (0 / 100)) 0 (by norm_num) (by norm_num)]
    decide
  · simp only [getDifficultyColor]
    rw [jsRound_eq (255 * (1 - 100 / 100)) 0 (by norm_num) (by norm_num),
      jsRound_eq (255 * (100 / 100)) 255 (by norm_num) (by norm_num)]
    decide
  · simp only [getDifficultyColor]
    rw [jsRound_eq (255 * (1 - 50 / 100)) 128 (by norm_num) (by norm_num),
      jsRound_eq (255 * (50 / 100)) 128 (by norm_num) (by norm_num)]
    decide

/-- **C1.** The code contradicts the claim: when the Score Provider fails
(`fetchJapaneseCards`'s catch returns an empty map), `syncWithAnki` replaces
a non-empty prior mapping — both the in-memory cache and the persistent
store — with the empty map instead of skipping the refresh. -/
theorem claim_C1_fetch_failure_overwrites_cache :
    syncWithAnki (Except.error ()) ⟨some [(['a'], 1)], [(['a'], 1)], false⟩ =
      ⟨some [], [], false⟩ ∧
    some [(['a'], (1 : ℚ))] ≠ some ([] : WordMap) := by
  exact ⟨rfl, by decide⟩

/-- **C5.** The code contradicts the claim: with two text units in one batch
and the clock passing the 8 ms deadline before unit 1 (`now` readings 0, 1,
9), the pass visits only unit 0 and then ends — `processed = end` after the
deadline break silently drops the remainder of the batch instead of
deferring it, and the pass ends without unit 1 ever being visited. -/
theorem claim_C5_deadline_drops_remainder :
    runPass exNow 2 50 = [0] ∧ (1 : Nat) ∉ runPass exNow 2 50 := by
  constructor
  · decide
  · decide

/-- **C6 counterexample.** A structural-mutation signal (element insertion)
arriving mid-pass (`isHighlighting = true`, no pending timer) leaves the
state completely unchanged — no debounced follow-up pass is scheduled — and
after the pass completes nothing is pending: the signal was silently
discarded, contrary to the claim. -/
theorem claim_C6_counterexample :
    onMutations ⟨true, none⟩ true 0 = ⟨true, none⟩ ∧
    passEnd (onMutations ⟨true, none⟩ true 0) = ⟨false, none⟩ := by
  exact ⟨rfl, rfl⟩

/-- **C6 (amended).** A structural-mutation signal arriving while no pass is
running replaces any pending debounce timer with a fresh 300 ms one (bursts
coalesce into the latest deadline); a signal arriving mid-pass is discarded
with no follow-up scheduled; a signal with no element-type insertion is
ignored; and when the debounce timer fires it clears itself and starts a
pass only if none is running and the word map is non-empty. -/
theorem claim_C6_amended_mutation_debounce :
    (∀ s : ContentState, ∀ τ : ℤ, s.isHighlighting = false →
      onMutations s true τ = ⟨false, some (τ + 300)⟩) ∧
    (∀ s : ContentState, ∀ τ : ℤ, s.isHighlighting = true →
      onMutations s true τ = s) ∧
    (∀ s : ContentState, ∀ τ : ℤ, onMutations s false τ = s) ∧
    (∀ s : ContentState, ∀ w : Bool,
      timerFire s w = ({ s with mutationTimeout := none },
        !s.isHighlighting && w)) := by
  refine ⟨?_, ?_, ?_, ?_⟩
  · rintro ⟨h, t⟩ τ hh
    simp only at hh
    subst hh
    simp [onMutations]
  · rintro ⟨h, t⟩ τ hh
    simp only at hh
    subst hh
    simp [onMutations]
  · intro s τ
    simp [onMutations]
  · intro s w
    rfl

/-- **C6 witness.** The amended claim at concrete inputs: an idle-state
mutation at time 5 schedules the timer for 305; a mid-pass mutation is
dropped. -/
theorem claim_C6_witness :
    onMutations ⟨false, none⟩ true 5 = ⟨false, some (5 + 300)⟩ ∧
    onMutations ⟨true, some 7⟩ true 5 = ⟨true, some 7⟩ :=
  ⟨claim_C6_amended_mutation_debounce.1 ⟨false, none⟩ 5 rfl,
    claim_C6_amended_mutation_debounce.2.1 ⟨true, some 7⟩ 5 rfl⟩

/-! ## Occurrence and `indexOf` lemmas -/

theorem occursAt_iff {t w : List Char} {i : Nat} :
    occursAt t w i = true ↔ (t.drop i).take w.length = w := by
  simp [occursAt]

theorem occursAt_length_le {t w : List Char} {i : Nat} (hw : w ≠ [])
    (h : occursAt t w i = true) : i + w.length ≤ t.length := by
  have h2 := occursAt_iff.mp h
  have h3 := congrArg List.length h2
  rw [List.length_take, List.length_drop] at h3
  have h4 : w.length ≠ 0 := by
    intro h0
    exact hw (List.eq_nil_of_length_eq_zero h0)
  omega

theorem occursAt_slice {t w : List Char} {i : Nat} (h : occursAt t w i = true) :
    jsSubstring t i (i + w.length) = w := by
  have h2 := occursAt_iff.mp h
  rw [jsSubstring, Nat.add_sub_cancel_left]
  exact h2

theorem occursAt_false_of_long {t w : List Char} {i : Nat} (hw : w ≠ [])
    (hlen : t.length < i + w.length) : occursAt t w i = false := by
  cases h : occursAt t w i with
  | false => rfl
  | true => exact absurd (occursAt_length_le hw h) (by omega)

theorem occursAt_nil_word (t : List Char) (i : Nat) : occursAt t [] i = true := by
  simp [occursAt]

theorem indexOfFromAux_sound (t w : List Char) :
    ∀ (fuel i j : Nat), indexOfFromAux t w fuel i = some j →
      occursAt t w j = true ∧ i ≤ j ∧ j < i + fuel := by
  intro fuel
  induction fuel with
  | zero => intro i j h; simp [indexOfFromAux] at h
  | succ n ih =>
    intro i j h
    rw [indexOfFromAux] at h
    by_cases hocc : occursAt t w i = true
    · rw [if_pos hocc] at h
      cases h
      exact ⟨hocc, Nat.le_refl _, by omega⟩
    · rw [if_neg hocc] at h
      obtain ⟨h1, h2, h3⟩ := ih (i + 1) j h
      exact ⟨h1, by omega, by omega⟩

theorem indexOfFromAux_min (t w : List Char) :
    ∀ (fuel i j : Nat), indexOfFromAux t w fuel i = some j →
      ∀ x, i ≤ x → x < j → occursAt t w x = false := by
  intro fuel
  induction fuel with
  | zero => intro i j h; simp [indexOfFromAux] at h
  | succ n ih =>
    intro i j h x hx1 hx2
    rw [indexOfFromAux] at h
    by_cases hocc : occursAt t w i = true
    · rw [if_pos hocc] at h
      cases h
      omega
    · rw [if_neg hocc] at h
      rcases Nat.eq_or_lt_of_le hx1 with he | hlt
      · subst he
        exact Bool.eq_false_iff.mpr hocc
      · exact ih (i + 1) j h x hlt hx2

theorem indexOfFromAux_none (t w : List Char) :
    ∀ (fuel i : Nat), indexOfFromAux t w fuel i = none →
      ∀ x, i ≤ x → x < i + fuel → occursAt t w x = false := by
  intro fuel
  induction fuel with
  | zero => intro i h x hx1 hx2; omega
  | succ n ih =>
    intro i h x hx1 hx2
    rw [indexOfFromAux] at h
    by_cases hocc : occursAt t w i = true
    · rw [if_pos hocc] at h; cases h
    · rw [if_neg hocc] at h
      rcases Nat.eq_or_lt_of_le hx1 with he | hlt
      · subst he
        exact Bool.eq_false_iff.mpr hocc
      · exact ih (i + 1) h x hlt (by omega)

theorem indexOfFrom_sound {t w : List Char} {p j : Nat}
    (h : indexOfFrom t w p = some j) :
    occursAt t w j = true ∧ min p t.length ≤ j ∧ j ≤ t.length := by
  obtain ⟨h1, h2, h3⟩ := indexOfFromAux_sound t w _ _ _ h
  have hm : min p t.length ≤ t.length := Nat.min_le_right _ _
  exact ⟨h1, h2, by omega⟩

theorem indexOfFrom_min {t w : List Char} {p j : Nat}
    (h : indexOfFrom t w p = some j) :
    ∀ x, min p t.length ≤ x → x < j → occursAt t w x = false :=
  indexOfFromAux_min t w _ _ _ h

theorem indexOfFrom_none {t w : List Char} {p : Nat}
    (h : indexOfFrom t w p = none) :
    ∀ x, min p t.length ≤ x → x ≤ t.length → occursAt t w x = false := by
  intro x hx1 hx2
  have hm : min p t.length ≤ t.length := Nat.min_le_right _ _
  exact indexOfFromAux_none t w _ _ h x hx1 (by omega)

theorem indexOfFrom_nil_word (t : List Char) (p : Nat) :
    indexOfFrom t [] p = some (min p t.length) := by
  rw [indexOfFrom]
  have hm : min p t.length ≤ t.length := Nat.min_le_right _ _
  cases hf : t.length + 1 - min p t.length with
  | zero => omega
  | succ n =>
    rw [indexOfFromAux]
    rw [if_pos (occursAt_nil_word t _)]

theorem indexOfFrom_none_word_ne_nil {t w : List Char} {p : Nat}
    (h : indexOfFrom t w p = none) : w ≠ [] := by
  intro hw
  subst hw
  rw [indexOfFrom_nil_word] at h
  cases h

theorem jsContains_nil_word (t : List Char) : jsContains t [] = true := by
  rw [jsContains, indexOfFrom_nil_word]
  rfl

/-! ## Scan loop lemmas -/

theorem scanLoop_mono (cover : Bool) (t w : List Char) (s : ℚ) :
    ∀ (fuel : Nat) (idx : Option Nat) (acc out : List RawMatch),
      scanLoop cover t w s fuel idx acc = some out → ∃ r, out = acc ++ r := by
  intro fuel
  induction fuel with
  | zero => intro idx acc out h; simp [scanLoop] at h
  | succ n ih =>
    intro idx acc out h
    cases idx with
    | none =>
      rw [scanLoop] at h
      cases h
      exact ⟨[], by simp⟩
    | some i =>
      rw [scanLoop] at h
      by_cases hc : (cover && isCovered acc i) = true
      · rw [if_pos hc] at h
        exact ih _ _ _ h
      · rw [if_neg hc] at h
        obtain ⟨r, hr⟩ := ih _ _ _ h
        exact ⟨⟨i, w.length, w, s⟩ :: r, by simp [hr]⟩

theorem scanLoop_sound (cover : Bool) (t w : List Char) (s : ℚ) :
    ∀ (fuel : Nat) (idx : Option Nat) (acc out : List RawMatch),
      (∀ i, idx = some i → occursAt t w i = true) →
      scanLoop cover t w s fuel idx acc = some out →
      ∀ m ∈ out, m ∈ acc ∨
        (occursAt t w m.index = true ∧ m.word = w ∧ m.length = w.length ∧
          m.score = s) := by
  intro fuel
  induction fuel with
  | zero => intro idx acc out _ h; simp [scanLoop] at h
  | succ n ih =>
    intro idx acc out hidx h
    cases idx with
    | none =>
      rw [scanLoop] at h
      cases h
      exact fun m hm => Or.inl hm
    | some i =>
      rw [scanLoop] at h
      have hnext : ∀ j, indexOfFrom t w (i + 1) = some j → occursAt t w j = true :=
        fun j hj => (indexOfFrom_sound hj).1
      have hocc : occursAt t w i = true := hidx i rfl
      intro m hm
      by_cases hc : (cover && isCovered acc i) = true
      · rw [if_pos hc] at h
        exact ih _ _ _ hnext h m hm
      · rw [if_neg hc] at h
        rcases ih _ _ _ hnext h m hm with hin | hnew
        · rcases List.mem_append.mp hin with hin2 | hin2
          · exact Or.inl hin2
          · have : m = ⟨i, w.length, w, s⟩ := by simpa using hin2
            subst this
            exact Or.inr ⟨hocc, rfl, rfl, rfl⟩
        · exact Or.inr hnew

theorem scanLoop_nil_word (cover : Bool) (t : List Char) (s : ℚ) :
    ∀ (fuel i : Nat) (acc : List RawMatch),
      scanLoop cover t [] s fuel (some i) acc = none := by
  intro fuel
  induction fuel with
  | zero => intro i acc; rfl
  | succ n ih =>
    intro i acc
    rw [scanLoop]
    rw [indexOfFrom_nil_word]
    exact ih _ _

theorem scanLoop_isSome (cover : Bool) {t w : List Char} (s : ℚ) (hw : w ≠ []) :
    ∀ (fuel i : Nat) (acc : List RawMatch), i ≤ t.length →
      t.length + 2 ≤ fuel + i →
      (scanLoop cover t w s fuel (some i) acc).isSome = true := by
  intro fuel
  induction fuel with
  | zero => intro i acc h1 h2; omega
  | succ n ih =>
    intro i acc h1 h2
    rw [scanLoop]
    cases hnext : indexOfFrom t w (i + 1) with
    | none =>
      cases n with
      | zero => omega
      | succ k => rw [scanLoop]; rfl
    | some j =>
      obtain ⟨hocc, hj1, hj2⟩ := indexOfFrom_sound hnext
      rcases Nat.lt_or_ge i t.length with hi | hi
      · have hj3 : i + 1 ≤ j := by
          have : min (i + 1) t.length = i + 1 := by omega
          omega
        exact ih j _ hj2 (by omega)
      · have hjlen : j = t.length := by omega
        have hwlen : w.length ≠ 0 := fun h0 => hw (List.eq_nil_of_length_eq_zero h0)
        have hfalse := occursAt_false_of_long hw
          (show t.length < j + w.length by omega)
        rw [hfalse] at hocc
        cases hocc

theorem scanWord_isSome (cover : Bool) {t w : List Char} (s : ℚ)
    (acc : List RawMatch) (hw : w ≠ []) :
    (scanWord cover t w s acc).isSome = true := by
  rw [scanWord]
  by_cases hc : jsContains t w = true
  · rw [if_pos hc]
    cases hidx : indexOfFrom t w 0 with
    | none =>
      cases hlen : t.length + 2 with
      | zero => omega
      | succ k => rw [scanLoop]; rfl
    | some i =>
      obtain ⟨_, _, hi⟩ := indexOfFrom_sound hidx
      exact scanLoop_isSome cover s hw _ i acc hi (by omega)
  · rw [if_neg hc]
    rfl

theorem scanLoop_complete {t w : List Char} (s : ℚ) :
    ∀ (fuel p : Nat) (acc out : List RawMatch),
      scanLoop false t w s fuel (indexOfFrom t w p) acc = some out →
      ∀ j, min p t.length ≤ j → occursAt t w j = true →
        (⟨j, w.length, w, s⟩ : RawMatch) ∈ out := by
  intro fuel
  induction fuel with
  | zero =>
    intro p acc out h
    cases hidx : indexOfFrom t w p <;> rw [hidx] at h <;> simp [scanLoop] at h
  | succ n ih =>
    intro p acc out h j hj hocc
    cases hidx : indexOfFrom t w p with
    | none =>
      rw [hidx] at h
      have hw : w ≠ [] := indexOfFrom_none_word_ne_nil hidx
      by_cases hjlen : j + w.length ≤ t.length
      · have hfalse := indexOfFrom_none hidx j hj (by omega)
        rw [hfalse] at hocc
        cases hocc
      · have hfalse : occursAt t w j = false := occursAt_false_of_long hw (by omega)
        rw [hfalse] at hocc
        cases hocc
    | some i =>
      rw [hidx] at h
      rw [scanLoop] at h
      rw [if_neg (by simp)] at h
      obtain ⟨hiocc, hi1, hi2⟩ := indexOfFrom_sound hidx
      rcases Nat.lt_trichotomy j i with hji | hji | hji
      · have hfalse := indexOfFrom_min hidx j hj hji
        rw [hfalse] at hocc
        cases hocc
      · subst hji
        obtain ⟨r, hr⟩ := scanLoop_mono false t w s _ _ _ _ h
        rw [hr]
        exact List.mem_append_left _ (List.mem_append_right _ (List.mem_singleton.mpr rfl))
      · have hjmin : min (i + 1) t.length ≤ j := by omega
        exact ih (i + 1) _ _ h j hjmin hocc

theorem scanLoop_pairwise (t w : List Char) (s : ℚ) :
    ∀ (fuel : Nat) (idx : Option Nat) (acc out : List RawMatch),
      List.Pairwise (fun a b => coveredBy a b.index = false) acc →
      scanLoop true t w s fuel idx acc = some out →
      List.Pairwise (fun a b => coveredBy a b.index = false) out := by
  intro fuel
  induction fuel with
  | zero => intro idx acc out _ h; simp [scanLoop] at h
  | succ n ih =>
    intro idx acc out hacc h
    cases idx with
    | none =>
      rw [scanLoop] at h
      cases h
      exact hacc
    | some i =>
      rw [scanLoop] at h
      by_cases hc : (true && isCovered acc i) = true
      · rw [if_pos hc] at h
        exact ih _ _ _ hacc h
      · rw [if_neg hc] at h
        refine ih _ _ _ ?_ h
        rw [List.pairwise_append]
        refine ⟨hacc, List.pairwise_singleton _ _, ?_⟩
        intro a ha b hb
        have hb2 : b = ⟨i, w.length, w, s⟩ := by simpa using hb
        subst hb2
        have hnc : isCovered acc i = false := by
          cases hcov : isCovered acc i with
          | false => rfl
          | true => exact absurd (by simp [hcov]) hc
        rw [isCovered, List.any_eq_false] at hnc
        simpa using hnc a ha

/-! ## Whole-scan (`findMatches`) lemmas -/

theorem foldScan_mono (cover : Bool) (t : List Char) :
    ∀ (ws : WordMap) (acc out : List RawMatch),
      ws.foldlM (fun acc2 p => scanWord cover t p.1 p.2 acc2) acc = some out →
      ∃ r, out = acc ++ r := by
  intro ws
  induction ws with
  | nil =>
    intro acc out h
    cases h
    exact ⟨[], by simp⟩
  | cons p ps ih =>
    intro acc out h
    rw [List.foldlM_cons] at h
    cases hw : scanWord cover t p.1 p.2 acc with
    | none => rw [hw] at h; cases h
    | some acc2 =>
      rw [hw] at h
      obtain ⟨r1, hr1⟩ := ih acc2 out h
      rw [scanWord] at hw
      by_cases hc : jsContains t p.1 = true
      · rw [if_pos hc] at hw
        obtain ⟨r0, hr0⟩ := scanLoop_mono cover t p.1 p.2 _ _ _ _ hw
        exact ⟨r0 ++ r1, by rw [hr1, hr0, List.append_assoc]⟩
      · rw [if_neg hc] at hw
        cases hw
        exact ⟨r1, hr1⟩

theorem foldScan_sound (cover : Bool) (t : List Char) :
    ∀ (ws : WordMap) (acc out : List RawMatch),
      ws.foldlM (fun acc2 p => scanWord cover t p.1 p.2 acc2) acc = some out →
      ∀ m ∈ out, m ∈ acc ∨
        ∃ p ∈ ws, occursAt t m.word m.index = true ∧ m.word = p.1 ∧
          m.length = m.word.length ∧ m.score = p.2 := by
  intro ws
  induction ws with
  | nil =>
    intro acc out h m hm
    cases h
    exact Or.inl hm
  | cons p ps ih =>
    intro acc out h m hm
    rw [List.foldlM_cons] at h
    cases hw : scanWord cover t p.1 p.2 acc with
    | none => rw [hw] at h; cases h
    | some acc2 =>
      rw [hw] at h
      rcases ih acc2 out h m hm with hin | ⟨q, hq, hocc, hword, hlen, hscore⟩
      · rw [scanWord] at hw
        by_cases hc : jsContains t p.1 = true
        · rw [if_pos hc] at hw
          rcases scanLoop_sound cover t p.1 p.2 _ _ _ _
              (fun i hi => (indexOfFrom_sound hi).1) hw m hin with hin2 | hnew
          · exact Or.inl hin2
          · refine Or.inr ⟨p, List.mem_cons_self _ _, ?_, hnew.2.1, ?_, hnew.2.2.2⟩
            · rw [hnew.2.1]; exact hnew.1
            · rw [hnew.2.1]; exact hnew.2.2.1
        · rw [if_neg hc] at hw
          cases hw
          exact Or.inl hin
      · exact Or.inr ⟨q, List.mem_cons_of_mem _ hq, hocc, hword, hlen, hscore⟩

theorem findMatches_sound {cover : Bool} {map : WordMap} {t : List Char}
    {out : List RawMatch} (h : findMatches cover map t = some out) :
    ∀ m ∈ out, occursAt t m.word m.index = true ∧
      m.length = m.word.length ∧ ∃ sc, (m.word, sc) ∈ map := by
  intro m hm
  rcases foldScan_sound cover t _ _ _ h m hm with hin | ⟨p, hp, hocc, hword, hlen, _⟩
  · cases hin
  · have hp2 : p ∈ map := ((List.perm_insertionSort wordLE map).mem_iff).mp hp
    refine ⟨hocc, hlen, p.2, ?_⟩
    rw [hword]
    exact hp2

theorem foldScan_isSome (cover : Bool) (t : List Char) :
    ∀ (ws : WordMap) (acc : List RawMatch),
      (∀ p ∈ ws, p.1 ≠ []) →
      (ws.foldlM (fun acc2 p => scanWord cover t p.1 p.2 acc2) acc).isSome
        = true := by
  intro ws
  induction ws with
  | nil => intro acc _; rfl
  | cons p ps ih =>
    intro acc hne
    rw [List.foldlM_cons]
    have hp : p.1 ≠ [] := hne p (List.mem_cons_self _ _)
    cases hw : scanWord cover t p.1 p.2 acc with
    | none =>
      have h2 : (scanWord cover t p.1 p.2 acc).isSome = true :=
        scanWord_isSome cover p.2 acc hp
      rw [hw] at h2
      cases h2
    | some acc2 =>
      exact ih acc2 (fun q hq => hne q (List.mem_cons_of_mem _ hq))

theorem findMatches_isSome (cover : Bool) (map : WordMap) (t : List Char)
    (hne : ∀ p ∈ map, p.1 ≠ []) :
    (findMatches cover map t).isSome = true := by
  rw [findMatches]
  refine foldScan_isSome cover t _ [] ?_
  intro p hp
  exact hne p (((List.perm_insertionSort wordLE map).mem_iff).mp hp)

theorem foldScan_complete (t : List Char) :
    ∀ (ws : WordMap) (acc out : List RawMatch),
      ws.foldlM (fun acc2 p => scanWord false t p.1 p.2 acc2) acc = some out →
      ∀ p ∈ ws, ∀ j, occursAt t p.1 j = true →
        (⟨j, p.1.length, p.1, p.2⟩ : RawMatch) ∈ out := by
  intro ws
  induction ws with
  | nil => intro acc out _ p hp; cases hp
  | cons q qs ih =>
    intro acc out h p hp j hocc
    rw [List.foldlM_cons] at h
    cases hw : scanWord false t q.1 q.2 acc with
    | none => rw [hw] at h; cases h
    | some acc2 =>
      rw [hw] at h
      rcases List.mem_cons.mp hp with hpq | hpqs
      · subst hpq
        obtain ⟨r, hr⟩ := foldScan_mono false t qs acc2 out h
        rw [hr]
        refine List.mem_append_left _ ?_
        rw [scanWord] at hw
        by_cases hc : jsContains t p.1 = true
        · rw [if_pos hc] at hw
          exact scanLoop_complete p.2 _ 0 _ _ hw j (by omega) hocc
        · rw [if_neg hc] at hw
          exfalso
          have hwne : p.1 ≠ [] := by
            intro h0
            rw [h0, jsContains_nil_word] at hc
            exact hc rfl
          have hjlen := occursAt_length_le hwne hocc
          have hcf : jsContains t p.1 = false := Bool.eq_false_iff.mpr hc
          rw [jsContains] at hcf
          cases hidx : indexOfFrom t p.1 0 with
          | some k => rw [hidx] at hcf; cases hcf
          | none =>
            have := indexOfFrom_none hidx j (by omega) (by omega)
            rw [this] at hocc
            cases hocc
      · exact ih acc2 out h p hpqs j hocc

theorem findMatches_complete {map : WordMap} {t : List Char}
    {out : List RawMatch} (h : findMatches false map t = some out) :
    ∀ p ∈ map, ∀ j, occursAt t p.1 j = true →
      (⟨j, p.1.length, p.1, p.2⟩ : RawMatch) ∈ out := by
  intro p hp
  exact foldScan_complete t _ _ _ h p
    (((List.perm_insertionSort wordLE map).mem_iff).mpr hp)

theorem foldScan_pairwise (t : List Char) :
    ∀ (ws : WordMap) (acc out : List RawMatch),
      List.Pairwise (fun a b => coveredBy a b.index = false) acc →
      ws.foldlM (fun acc2 p => scanWord true t p.1 p.2 acc2) acc = some out →
      List.Pairwise (fun a b => coveredBy a b.index = false) out := by
  intro ws
  induction ws with
  | nil =>
    intro acc out hacc h
    cases h
    exact hacc
  | cons q qs ih =>
    intro acc out hacc h
    rw [List.foldlM_cons] at h
    cases hw : scanWord true t q.1 q.2 acc with
    | none => rw [hw] at h; cases h
    | some acc2 =>
      rw [hw] at h
      refine ih acc2 out ?_ h
      rw [scanWord] at hw
      by_cases hc : jsContains t q.1 = true
      · rw [if_pos hc] at hw
        exact scanLoop_pairwise t q.1 q.2 _ _ _ _ hacc hw
      · rw [if_neg hc] at hw
        cases hw
        exact hacc

theorem findMatches_pairwise {map : WordMap} {t : List Char}
    {out : List RawMatch} (h : findMatches true map t = some out) :
    List.Pairwise (fun a b => coveredBy a b.index = false) out :=
  foldScan_pairwise t _ _ _ (List.Pairwise.nil) h

theorem findMatches_words_ne_nil {cover : Bool} {map : WordMap} {t : List Char}
    {out : List RawMatch} (h : findMatches cover map t = some out) :
    ∀ p ∈ map, p.1 ≠ [] := by
  intro p hp hnil
  have hp2 : p ∈ List.insertionSort wordLE map :=
    ((List.perm_insertionSort wordLE map).mem_iff).mpr hp
  obtain ⟨l1, l2, hsplit⟩ := List.append_of_mem hp2
  rw [findMatches, hsplit, List.foldlM_append] at h
  cases hacc : (l1.foldlM (fun acc2 q => scanWord cover t q.1 q.2 acc2)
      ([] : List RawMatch)) with
  | none => rw [hacc] at h; cases h
  | some acc1 =>
    rw [hacc] at h
    simp only [Option.pure_def, Option.bind_eq_bind, Option.some_bind] at h
    rw [List.foldlM_cons] at h
    cases hw : scanWord cover t p.1 p.2 acc1 with
    | none => rw [hw] at h; cases h
    | some acc2 =>
      rw [scanWord, hnil, if_pos (jsContains_nil_word t), indexOfFrom_nil_word,
        scanLoop_nil_word] at hw
      cases hw

/-- **C3.** With mapping `{"ab": 10, "abc": 90}` and text `"abcab"`, the
`part_002` pipeline (the revision the claim cites for the covered-position
skip) yields exactly the matches `abc@0` and the standalone `ab@3` — the
contained `ab@0` is dropped because its start is covered by the accepted
`abc@0` — and hence the two rendered groups `[0,3)` with primary `abc` and
`[3,5)` with primary `ab`. In general (second conjunct) the scan never emits
a match whose start position lies inside the span of an earlier-accepted
match: such occurrences are skipped. -/
theorem claim_C3_contained_match_skipped :
    (processP2 [("ab".toList, 10), ("abc".toList, 90)] "abcab".toList =
      some [⟨0, 3, "abc".toList, 90⟩, ⟨3, 2, "ab".toList, 10⟩]) ∧
    (∀ (map : WordMap) (t : List Char) (out : List RawMatch),
      findMatches true map t = some out →
      List.Pairwise (fun a b => coveredBy a b.index = false) out) :=
  ⟨rfl, fun _ _ _ h => findMatches_pairwise h⟩

/-- **C3 witness.** The general conjunct applied to the claim's own example:
the scan output for `{"ab": 10, "abc": 90}` on `"abcab"`. -/
theorem claim_C3_witness :
    List.Pairwise (fun a b => coveredBy a b.index = false)
      [⟨0, 3, "abc".toList, (90 : ℚ)⟩, ⟨3, 2, "ab".toList, 10⟩] :=
  claim_C3_contained_match_skipped.2 [("ab".toList, 10), ("abc".toList, 90)]
    "abcab".toList [⟨0, 3, "abc".toList, 90⟩, ⟨3, 2, "ab".toList, 10⟩] rfl

/-! ## Score-provider sanitisation lemmas (for C9) -/

theorem cardScore_nonneg (i l r : ℚ) : 0 ≤ cardScore i l r := by
  simp only [cardScore]
  exact le_max_left 0 _

theorem cardScore_le_100 (i l r : ℚ) : cardScore i l r ≤ 100 := by
  simp only [cardScore]
  exact max_le (by norm_num) (min_le_left _ _)

theorem mapSet_forall {P : List Char × ℚ → Prop} {m : WordMap}
    {k : List Char} {v : ℚ} (hm : ∀ p ∈ m, P p) (hkv : P (k, v)) :
    ∀ p ∈ mapSet m k v, P p := by
  intro p hp
  rw [mapSet] at hp
  by_cases hex : m.any (fun q => q.1 = k) = true
  · rw [if_pos hex] at hp
    obtain ⟨q, hq, hqe⟩ := List.mem_map.mp hp
    by_cases hqk : q.1 = k
    · rw [if_pos hqk] at hqe
      rw [← hqe]
      exact hkv
    · rw [if_neg hqk] at hqe
      rw [← hqe]
      exact hm q hq
  · rw [if_neg hex] at hp
    rcases List.mem_append.mp hp with h1 | h1
    · exact hm p h1
    · have : p = (k, v) := by simpa using h1
      rw [this]
      exact hkv

theorem buildWordMap_forall (cards : List CardInfo) :
    ∀ p ∈ buildWordMap cards, p.1 ≠ [] ∧ 0 ≤ p.2 ∧ p.2 ≤ 100 := by
  rw [buildWordMap]
  suffices h : ∀ (acc : WordMap),
      (∀ p ∈ acc, p.1 ≠ [] ∧ 0 ≤ p.2 ∧ p.2 ≤ 100) →
      ∀ p ∈ cards.foldl addCard acc, p.1 ≠ [] ∧ 0 ≤ p.2 ∧ p.2 ≤ 100 by
    exact h [] (by simp)
  induction cards with
  | nil => intro acc hacc; simpa using hacc
  | cons c cs ih =>
    intro acc hacc
    rw [List.foldl_cons]
    refine ih (addCard acc c) ?_
    rw [addCard]
    cases c.expression with
    | none => exact hacc
    | some e =>
      show ∀ p ∈ (if e = [] then acc
          else mapSet acc e (cardScore c.interval c.lapses c.reps)),
        p.1 ≠ [] ∧ 0 ≤ p.2 ∧ p.2 ≤ 100
      by_cases he : e = []
      · rw [if_pos he]
        exact hacc
      · rw [if_neg he]
        exact mapSet_forall hacc ⟨he, cardScore_nonneg _ _ _, cardScore_le_100 _ _ _⟩

/-- **C9 counterexample.** A mapping containing the malformed (empty-word)
entry does make the match scan fail to terminate, contrary to the claim's
parenthetical: the fueled embedding of the `while (index !== -1)` loop
exhausts any fuel (first conjunct), because the JS index sequence for the
empty word on text `"a"` runs 0, 1, 1, 1, … — `indexOf` clamps the start
position to the text length and keeps returning it, never `-1` (remaining
conjuncts exhibit the reachable fixpoint of the index successor). -/
theorem claim_C9_counterexample :
    findMatches false [(([] : List Char), (5 : ℚ))] "a".toList = none ∧
    indexOfFrom "a".toList [] 0 = some 0 ∧
    indexOfFrom "a".toList [] (0 + 1) = some 1 ∧
    indexOfFrom "a".toList [] (1 + 1) = some 1 :=
  ⟨rfl, rfl, rfl, rfl⟩

/-- **C9 (amended).** Malformed entries are excluded upstream: every entry of
the mapping built by `fetchJapaneseCards` has a non-empty word (cards with a
missing or empty `Expression` are skipped) and a score clamped into
`[0, 100]` (in particular finite); and for every mapping whose words are all
non-empty — which the upstream exclusion guarantees for every mapping
actually handed to the Match Engine — the match scan of either revision
terminates. A mapping containing an empty word would instead make the scan
loop forever (see the counterexample), so the upstream exclusion is what
protects the engine. -/
theorem claim_C9_amended_malformed_entries :
    (∀ (cards : List CardInfo), ∀ p ∈ buildWordMap cards,
      p.1 ≠ [] ∧ 0 ≤ p.2 ∧ p.2 ≤ 100) ∧
    (∀ (cover : Bool) (map : WordMap) (t : List Char),
      (∀ p ∈ map, p.1 ≠ []) → (findMatches cover map t).isSome = true) :=
  ⟨buildWordMap_forall, fun cover map t h => findMatches_isSome cover map t h⟩

/-- **C9 witness.** The termination conjunct at a concrete mapping and text,
and the sanitisation conjunct at a concrete card list. -/
theorem claim_C9_witness :
    (findMatches false [("ab".toList, (10 : ℚ))] "ab".toList).isSome = true ∧
    (∀ p ∈ buildWordMap [⟨some "ab".toList, 3, 1, 2⟩], p.1 ≠ [] ∧ 0 ≤ p.2 ∧ p.2 ≤ 100) :=
  ⟨claim_C9_amended_malformed_entries.2 false [("ab".toList, 10)] "ab".toList
      (by decide),
    claim_C9_amended_malformed_entries.1 [⟨some "ab".toList, 3, 1, 2⟩]⟩

/-! ## Layer-assignment lemmas (for C7) -/

theorem overlapsWordB_comm (a b : RawMatch) :
    overlapsWordB a b = overlapsWordB b a := by
  rw [overlapsWordB, overlapsWordB, Bool.or_comm]

theorem levelOk_iff {prev : List (RawMatch × Nat)} {m : RawMatch} {L : Nat} :
    levelOk prev m L = true ↔
      ∀ p ∈ prev, p.2 = L → overlapsWordB m p.1 = false := by
  rw [levelOk, List.all_eq_true]
  constructor
  · intro h p hp hpl
    have h2 := h p hp
    rw [hpl] at h2
    simp at h2
    exact h2
  · intro h p hp
    by_cases hpl : p.2 = L
    · have h2 := h p hp hpl
      simp [hpl, h2]
    · simp [hpl]

theorem le_maxLevel : ∀ (prev : List (RawMatch × Nat)) (p : RawMatch × Nat),
    p ∈ prev → p.2 ≤ maxLevel prev := by
  intro prev
  induction prev with
  | nil => intro p hp; cases hp
  | cons q qs ih =>
    intro p hp
    rw [maxLevel, List.foldr_cons]
    rcases List.mem_cons.mp hp with h | h
    · rw [h]
      exact Nat.le_max_left _ _
    · exact Nat.le_trans (ih p h) (Nat.le_max_right _ _)

theorem levelOk_maxLevel_succ (prev : List (RawMatch × Nat)) (m : RawMatch) :
    levelOk prev m (maxLevel prev + 1) = true := by
  rw [levelOk_iff]
  intro p hp hpl
  have := le_maxLevel prev p hp
  omega

theorem findLevelFrom_spec (prev : List (RawMatch × Nat)) (m : RawMatch) :
    ∀ (fuel L : Nat),
      (∃ L2, L ≤ L2 ∧ L2 < L + fuel ∧ levelOk prev m L2 = true) →
      levelOk prev m (findLevelFrom prev m fuel L) = true ∧
      L ≤ findLevelFrom prev m fuel L ∧
      ∀ L3, L ≤ L3 → L3 < findLevelFrom prev m fuel L →
        levelOk prev m L3 = false := by
  intro fuel
  induction fuel with
  | zero =>
    intro L h
    obtain ⟨L2, h1, h2, _⟩ := h
    omega
  | succ n ih =>
    intro L h
    rw [findLevelFrom]
    by_cases hok : levelOk prev m L = true
    · rw [if_pos hok]
      exact ⟨hok, Nat.le_refl _, fun L3 h1 h2 => by omega⟩
    · rw [if_neg hok]
      have hex : ∃ L2, L + 1 ≤ L2 ∧ L2 < (L + 1) + n ∧ levelOk prev m L2 = true := by
        obtain ⟨L2, h1, h2, h3⟩ := h
        refine ⟨L2, ?_, by omega, h3⟩
        rcases Nat.eq_or_lt_of_le h1 with he | hlt
        · exfalso
          rw [← he] at h3
          exact hok h3
        · omega
      obtain ⟨g1, g2, g3⟩ := ih (L + 1) hex
      refine ⟨g1, by omega, ?_⟩
      intro L3 h1 h2
      rcases Nat.eq_or_lt_of_le h1 with he | hlt
      · rw [← he]
        exact Bool.eq_false_iff.mpr hok
      · exact g3 L3 hlt h2

theorem findLevel_ok (prev : List (RawMatch × Nat)) (m : RawMatch) :
    levelOk prev m (findLevel prev m) = true := by
  refine (findLevelFrom_spec prev m (maxLevel prev + 2) 0 ?_).1
  exact ⟨maxLevel prev + 1, by omega, by omega, levelOk_maxLevel_succ prev m⟩

theorem findLevel_min (prev : List (RawMatch × Nat)) (m : RawMatch) :
    ∀ L < findLevel prev m, levelOk prev m L = false := by
  intro L hL
  refine (findLevelFrom_spec prev m (maxLevel prev + 2) 0 ?_).2.2 L (by omega) hL
  exact ⟨maxLevel prev + 1, by omega, by omega, levelOk_maxLevel_succ prev m⟩

theorem findLevel_eq_of (prev : List (RawMatch × Nat)) (m : RawMatch) (L : Nat)
    (hok : levelOk prev m L = true)
    (hmin : ∀ L2 < L, levelOk prev m L2 = false) : findLevel prev m = L := by
  rcases Nat.lt_trichotomy (findLevel prev m) L with h | h | h
  · have h2 := hmin _ h
    have h3 := findLevel_ok prev m
    rw [h2] at h3
    cases h3
  · exact h
  · have := findLevel_min prev m L h
    rw [this] at hok
    cases hok

theorem assignPairs_append (xs : List RawMatch) (x : RawMatch) :
    assignPairs (xs ++ [x]) =
      assignPairs xs ++ [(x, findLevel (assignPairs xs) x)] := by
  rw [assignPairs, assignPairs, List.foldl_append]
  rfl

theorem assignPairs_pairwise (ms : List RawMatch) :
    List.Pairwise (fun a b => overlapsWordB a.1 b.1 = true → a.2 ≠ b.2)
      (assignPairs ms) := by
  induction ms using List.reverseRecOn with
  | nil => simp [assignPairs]
  | append_singleton xs x ih =>
    rw [assignPairs_append, List.pairwise_append]
    refine ⟨ih, List.pairwise_singleton _ _, ?_⟩
    intro a ha b hb
    have hb2 : b = (x, findLevel (assignPairs xs) x) := by simpa using hb
    subst hb2
    intro hover hlev
    have hok := levelOk_iff.mp (findLevel_ok (assignPairs xs) x)
    have := hok a ha hlev
    rw [overlapsWordB_comm] at this
    rw [this] at hover
    cases hover

theorem assignPairs_greedy (ms : List RawMatch) :
    ∀ (i : Nat) (pr : RawMatch × Nat), (assignPairs ms).get? i = some pr →
      levelOk ((assignPairs ms).take i) pr.1 pr.2 = true ∧
      ∀ L < pr.2, levelOk ((assignPairs ms).take i) pr.1 L = false := by
  induction ms using List.reverseRecOn with
  | nil => intro i pr h; simp [assignPairs] at h
  | append_singleton xs x ih =>
    intro i pr h
    rw [assignPairs_append] at h ⊢
    rcases Nat.lt_trichotomy i (assignPairs xs).length with hi | hi | hi
    · rw [List.get?_append hi] at h
      rw [List.take_append_of_le_length (Nat.le_of_lt hi)]
      exact ih i pr h
    · subst hi
      rw [List.get?_append_right (Nat.le_refl _)] at h
      rw [Nat.sub_self] at h
      have hpr : pr = (x, findLevel (assignPairs xs) x) := by
        have := h
        simp at this
        exact this.symm
      subst hpr
      rw [List.take_left]
      exact ⟨findLevel_ok _ _, findLevel_min _ _⟩
    · exfalso
      have hlen : ((assignPairs xs) ++ [(x, findLevel (assignPairs xs) x)]).length ≤ i := by
        rw [List.length_append]
        simpa using hi
      rw [List.get?_eq_none.mpr hlen] at h
      cases h

/-- **C7.** Layer assignment is the greedy coloring over a group's members in
their relative order: the pair at position `i` of the assignment receives the
lowest level that no previously-assigned overlapping member occupies
(conjunct 1); consequently no two members whose spans (measured, as in the
source, by `word.length`) intersect ever share a layer (conjunct 2), a
single-member group uses one layer, namely `[0]` (conjunct 3), and two
pairwise-overlapping members use exactly the two layers `[0, 1]`
(conjunct 4). -/
theorem claim_C7_greedy_layers :
    (∀ (ms : List RawMatch) (i : Nat) (pr : RawMatch × Nat),
      (assignPairs ms).get? i = some pr →
      levelOk ((assignPairs ms).take i) pr.1 pr.2 = true ∧
      ∀ L < pr.2, levelOk ((assignPairs ms).take i) pr.1 L = false) ∧
    (∀ ms : List RawMatch,
      List.Pairwise (fun a b => overlapsWordB a.1 b.1 = true → a.2 ≠ b.2)
        (assignPairs ms)) ∧
    (∀ m : RawMatch, assignLevels [m] = [0]) ∧
    (∀ a b : RawMatch, overlapsWordB a b = true →
      assignLevels [a, b] = [0, 1]) := by
  refine ⟨assignPairs_greedy, assignPairs_pairwise, ?_, ?_⟩
  · intro m
    have h := findLevel_eq_of [] m 0 rfl (fun L2 h2 => absurd h2 (Nat.not_lt_zero L2))
    simp [assignLevels, assignPairs, h]
  · intro a b hover
    have hba : overlapsWordB b a = true := by
      rw [overlapsWordB_comm]
      exact hover
    have h1 : findLevel [] a = 0 :=
      findLevel_eq_of [] a 0 rfl (fun L2 h2 => absurd h2 (Nat.not_lt_zero L2))
    have hok0 : levelOk [(a, 0)] b 0 = false := by
      simp [levelOk, hba]
    have hok1 : levelOk [(a, 0)] b 1 = true := by
      simp [levelOk]
    have h2 : findLevel [(a, 0)] b = 1 :=
      findLevel_eq_of [(a, 0)] b 1 hok1 (fun L2 hL2 => by
        have hz : L2 = 0 := by omega
        rw [hz]
        exact hok0)
    simp [assignLevels, assignPairs, h1, h2]

/-- **C7 witness.** The greedy characterization applied to a one-member list,
and the two-layer consequence applied to two concretely overlapping
matches. -/
theorem claim_C7_witness :
    (levelOk ((assignPairs [⟨0, 2, "ab".toList, (10 : ℚ)⟩]).take 0)
        ⟨0, 2, "ab".toList, (10 : ℚ)⟩ 0 = true ∧
      ∀ L < 0, levelOk ((assignPairs [⟨0, 2, "ab".toList, (10 : ℚ)⟩]).take 0)
        ⟨0, 2, "ab".toList, (10 : ℚ)⟩ L = false) ∧
    assignLevels [⟨0, 2, "ab".toList, (10 : ℚ)⟩, ⟨1, 2, "bc".toList, 20⟩] =
      [0, 1] :=
  ⟨claim_C7_greedy_layers.1 [⟨0, 2, "ab".toList, (10 : ℚ)⟩] 0
      (⟨0, 2, "ab".toList, (10 : ℚ)⟩, 0) rfl,
    claim_C7_greedy_layers.2.2.2 ⟨0, 2, "ab".toList, (10 : ℚ)⟩
      ⟨1, 2, "bc".toList, 20⟩ (by decide)⟩

/-! ## Grouping (`buildGroups`) lemmas -/

theorem addToGroups_found (gs : List MatchGroup) (m : RawMatch)
    (h : ∃ g ∈ gs, groupTest m g = true) :
    (addToGroups gs m).map (fun g => (g.index, g.length)) =
      gs.map (fun g => (g.index, g.length)) := by
  induction gs with
  | nil => obtain ⟨g, hg, _⟩ := h; cases hg
  | cons g gs ih =>
    rw [addToGroups]
    by_cases hg : groupTest m g = true
    · rw [if_pos hg]
      rfl
    · rw [if_neg hg]
      rw [List.map_cons, List.map_cons]
      have h2 : ∃ g2 ∈ gs, groupTest m g2 = true := by
        obtain ⟨g2, hg2, ht⟩ := h
        rcases List.mem_cons.mp hg2 with he | he
        · exfalso
          rw [he] at ht
          exact hg ht
        · exact ⟨g2, he, ht⟩
      rw [ih h2]

theorem addToGroups_new (gs : List MatchGroup) (m : RawMatch)
    (h : ∀ g ∈ gs, groupTest m g = false) :
    addToGroups gs m = gs ++ [mkGroup m] := by
  induction gs with
  | nil => rfl
  | cons g gs ih =>
    rw [addToGroups]
    rw [if_neg (by rw [h g (List.mem_cons_self _ _)]; exact Bool.false_ne_true)]
    rw [ih (fun g2 hg2 => h g2 (List.mem_cons_of_mem _ hg2))]
    rfl

theorem primSpans_foldl_mono :
    ∀ (ms : List RawMatch) (gs : List MatchGroup),
      ∃ r, (ms.foldl addToGroups gs).map (fun g => (g.index, g.length)) =
        gs.map (fun g => (g.index, g.length)) ++ r := by
  intro ms
  induction ms with
  | nil => intro gs; exact ⟨[], by simp⟩
  | cons m ms ih =>
    intro gs
    rw [List.foldl_cons]
    obtain ⟨r, hr⟩ := ih (addToGroups gs m)
    by_cases h : ∃ g ∈ gs, groupTest m g = true
    · rw [addToGroups_found gs m h] at hr
      exact ⟨r, hr⟩
    · have h2 : ∀ g ∈ gs, groupTest m g = false := by
        intro g hg
        cases ht : groupTest m g with
        | false => rfl
        | true => exact absurd ⟨g, hg, ht⟩ h
      rw [addToGroups_new gs m h2]
      obtain ⟨r2, hr2⟩ := ih (gs ++ [mkGroup m])
      rw [hr2, List.map_append]
      exact ⟨[mkGroup m].map (fun g => (g.index, g.length)) ++ r2,
        List.append_assoc _ _ _⟩

theorem addToGroups_covers (gs : List MatchGroup) (m : RawMatch)
    (hlb : ∀ g ∈ gs, g.index ≤ m.index) (hpos : 0 < m.length) :
    ∃ p ∈ (addToGroups gs m).map (fun g => (g.index, g.length)),
      p.1 ≤ m.index ∧ m.index < p.1 + p.2 := by
  induction gs with
  | nil =>
    refine ⟨(m.index, m.length), ?_, Nat.le_refl _, by omega⟩
    simp [addToGroups, mkGroup]
  | cons g gs ih =>
    rw [addToGroups]
    by_cases hg : groupTest m g = true
    · rw [if_pos hg]
      refine ⟨(g.index, g.length), by simp, ?_⟩
      rw [groupTest] at hg
      have hglb := hlb g (List.mem_cons_self _ _)
      simp only [Bool.or_eq_true, Bool.and_eq_true, decide_eq_true_eq] at hg
      rcases hg with ⟨h1, h2⟩ | ⟨_, h2⟩
      · exact ⟨h1, h2⟩
      · omega
    · rw [if_neg hg]
      obtain ⟨p, hp, hp2⟩ := ih (fun g2 hg2 => hlb g2 (List.mem_cons_of_mem _ hg2))
      refine ⟨p, ?_, hp2⟩
      rw [List.map_cons]
      exact List.mem_cons_of_mem _ hp

theorem groupTest_false_ge {g : MatchGroup} {m : RawMatch}
    (hlb : g.index ≤ m.index) (h : groupTest m g = false) :
    g.index + g.length ≤ m.index := by
  rw [groupTest] at h
  simp only [Bool.or_eq_false_iff, Bool.and_eq_false_iff,
    decide_eq_false_iff_not, Nat.not_le, Nat.not_lt] at h
  rcases h.1 with h1 | h1
  · omega
  · exact h1

theorem groupTest_true_bounds {g : MatchGroup} {m : RawMatch}
    (hlb : g.index ≤ m.index) (h : groupTest m g = true) :
    g.index ≤ m.index ∧ m.index < g.index + g.length := by
  rw [groupTest] at h
  simp only [Bool.or_eq_true, Bool.and_eq_true, decide_eq_true_eq] at h
  rcases h with ⟨h1, h2⟩ | ⟨_, h2⟩
  · exact ⟨h1, h2⟩
  · omega

theorem buildGroupsAux_cover_disj :
    ∀ (ms : List RawMatch) (gs : List MatchGroup),
      List.Pairwise (fun a b => a.index ≤ b.index) ms →
      (∀ g ∈ gs, ∀ m ∈ ms, g.index ≤ m.index) →
      List.Pairwise (fun p q => p.1 + p.2 ≤ q.1)
        (gs.map (fun g => (g.index, g.length))) →
      (∀ m ∈ ms, 0 < m.length) →
      List.Pairwise (fun p q => p.1 + p.2 ≤ q.1)
        ((ms.foldl addToGroups gs).map (fun g => (g.index, g.length))) ∧
      (∀ m ∈ ms, ∃ p ∈ (ms.foldl addToGroups gs).map (fun g => (g.index, g.length)),
        p.1 ≤ m.index ∧ m.index < p.1 + p.2) := by
  intro ms
  induction ms with
  | nil =>
    intro gs _ _ hdisj _
    exact ⟨hdisj, fun m hm => absurd hm (List.not_mem_nil m)⟩
  | cons m ms ih =>
    intro gs hsort hlb hdisj hpos
    rw [List.foldl_cons]
    have hsort2 := List.pairwise_cons.mp hsort
    have hlb2 : ∀ g ∈ addToGroups gs m, ∀ m2 ∈ ms, g.index ≤ m2.index := by
      intro g hg m2 hm2
      by_cases hany : ∃ g2 ∈ gs, groupTest m g2 = true
      · have hsp := addToGroups_found gs m hany
        have : (g.index, g.length) ∈ (addToGroups gs m).map
            (fun g => (g.index, g.length)) := List.mem_map_of_mem _ hg
        rw [hsp] at this
        obtain ⟨g2, hg2, he⟩ := List.mem_map.mp this
        have : g2.index = g.index := congrArg Prod.fst he
        rw [← this]
        exact hlb g2 hg2 m2 (List.mem_cons_of_mem _ hm2)
      · have hall : ∀ g2 ∈ gs, groupTest m g2 = false := by
          intro g2 hg2
          cases ht : groupTest m g2 with
          | false => rfl
          | true => exact absurd ⟨g2, hg2, ht⟩ hany
        rw [addToGroups_new gs m hall] at hg
        rcases List.mem_append.mp hg with hg3 | hg3
        · exact hlb g hg3 m2 (List.mem_cons_of_mem _ hm2)
        · have : g = mkGroup m := by simpa using hg3
          rw [this]
          exact hsort2.1 m2 hm2
    have hdisj2 : List.Pairwise (fun p q => p.1 + p.2 ≤ q.1)
        ((addToGroups gs m).map (fun g => (g.index, g.length))) := by
      by_cases hany : ∃ g2 ∈ gs, groupTest m g2 = true
      · rw [addToGroups_found gs m hany]
        exact hdisj
      · have hall : ∀ g2 ∈ gs, groupTest m g2 = false := by
          intro g2 hg2
          cases ht : groupTest m g2 with
          | false => rfl
          | true => exact absurd ⟨g2, hg2, ht⟩ hany
        rw [addToGroups_new gs m hall, List.map_append, List.pairwise_append]
        refine ⟨hdisj, by simp, ?_⟩
        intro p hp q hq
        obtain ⟨g2, hg2, he⟩ := List.mem_map.mp hp
        have hq2 : q = (m.index, m.length) := by simpa [mkGroup] using hq
        rw [← he, hq2]
        exact groupTest_false_ge (hlb g2 hg2 m (List.mem_cons_self _ _))
          (hall g2 hg2)
    obtain ⟨c1, c2⟩ := ih (addToGroups gs m) hsort2.2 hlb2 hdisj2
      (fun m2 hm2 => hpos m2 (List.mem_cons_of_mem _ hm2))
    refine ⟨c1, ?_⟩
    intro m2 hm2
    rcases List.mem_cons.mp hm2 with he | hin
    · subst he
      obtain ⟨p, hp, hpb⟩ := addToGroups_covers gs m2
        (fun g hg => hlb g hg m2 (List.mem_cons_self _ _))
        (hpos m2 (List.mem_cons_self _ _))
      obtain ⟨r, hr⟩ := primSpans_foldl_mono ms (addToGroups gs m2)
      refine ⟨p, ?_, hpb⟩
      rw [hr]
      exact List.mem_append_left _ hp
    · exact c2 m2 hin

theorem buildGroups_structure :
    ∀ (ms : List RawMatch) (gs : List MatchGroup),
      List.Pairwise (fun a b => a.index ≤ b.index) ms →
      (∀ g ∈ gs, ∀ m ∈ ms, g.index ≤ m.index) →
      (∀ g ∈ gs, ∃ tl, g.overlapping = primOf g :: tl ∧
        ∀ m2 ∈ tl, g.index ≤ m2.index ∧ m2.index < g.index + g.length) →
      ∀ g ∈ ms.foldl addToGroups gs, ∃ tl, g.overlapping = primOf g :: tl ∧
        ∀ m2 ∈ tl, g.index ≤ m2.index ∧ m2.index < g.index + g.length := by
  intro ms
  induction ms with
  | nil =>
    intro gs _ _ hgood
    simpa using hgood
  | cons m ms ih =>
    intro gs hsort hlb hgood
    rw [List.foldl_cons]
    have hsort2 := List.pairwise_cons.mp hsort
    have hlb2 : ∀ g ∈ addToGroups gs m, ∀ m2 ∈ ms, g.index ≤ m2.index := by
      intro g hg m2 hm2
      by_cases hany : ∃ g2 ∈ gs, groupTest m g2 = true
      · have hsp := addToGroups_found gs m hany
        have hmem : (g.index, g.length) ∈ (addToGroups gs m).map
            (fun g => (g.index, g.length)) := List.mem_map_of_mem _ hg
        rw [hsp] at hmem
        obtain ⟨g2, hg2, he⟩ := List.mem_map.mp hmem
        have : g2.index = g.index := congrArg Prod.fst he
        rw [← this]
        exact hlb g2 hg2 m2 (List.mem_cons_of_mem _ hm2)
      · have hall : ∀ g2 ∈ gs, groupTest m g2 = false := by
          intro g2 hg2
          cases ht : groupTest m g2 with
          | false => rfl
          | true => exact absurd ⟨g2, hg2, ht⟩ hany
        rw [addToGroups_new gs m hall] at hg
        rcases List.mem_append.mp hg with hg3 | hg3
        · exact hlb g hg3 m2 (List.mem_cons_of_mem _ hm2)
        · have : g = mkGroup m := by simpa using hg3
          rw [this]
          exact hsort2.1 m2 hm2
    refine ih (addToGroups gs m) hsort2.2 hlb2 ?_
    -- one addToGroups step preserves the member-structure invariant
    clear ih hsort hsort2 hlb2
    have hlbm : ∀ g ∈ gs, g.index ≤ m.index :=
      fun g hg => hlb g hg m (List.mem_cons_self _ _)
    clear hlb
    induction gs with
    | nil =>
      intro g hg
      have : g = mkGroup m := by simpa [addToGroups] using hg
      subst this
      exact ⟨[], rfl, fun m2 hm2 => absurd hm2 (List.not_mem_nil m2)⟩
    | cons g0 gs0 ih0 =>
      intro g hg
      rw [addToGroups] at hg
      by_cases ht : groupTest m g0 = true
      · rw [if_pos ht] at hg
        rcases List.mem_cons.mp hg with he | hin
        · subst he
          obtain ⟨tl, htl, hbnd⟩ := hgood g0 (List.mem_cons_self _ _)
          refine ⟨tl ++ [m], ?_, ?_⟩
          · show g0.overlapping ++ [m] = _
            rw [htl]
            rfl
          · intro m2 hm2
            rcases List.mem_append.mp hm2 with h2 | h2
            · exact hbnd m2 h2
            · have : m2 = m := by simpa using h2
              subst this
              exact groupTest_true_bounds (hlbm g0 (List.mem_cons_self _ _)) ht
        · exact hgood g (List.mem_cons_of_mem _ hin)
      · rw [if_neg ht] at hg
        rcases List.mem_cons.mp hg with he | hin
        · subst he
          exact hgood g (List.mem_cons_self _ _)
        · exact ih0
            (fun g2 hg2 => hgood g2 (List.mem_cons_of_mem _ hg2))
            (fun g2 hg2 => hlbm g2 (List.mem_cons_of_mem _ hg2))
            g hin

theorem primOf_addToGroups (gs : List MatchGroup) (m : RawMatch) :
    ∀ g ∈ addToGroups gs m, primOf g ∈ gs.map primOf ∨ primOf g = m := by
  induction gs with
  | nil =>
    intro g hg
    have : g = mkGroup m := by simpa [addToGroups] using hg
    subst this
    exact Or.inr rfl
  | cons g0 gs0 ih =>
    intro g hg
    rw [addToGroups] at hg
    by_cases ht : groupTest m g0 = true
    · rw [if_pos ht] at hg
      rcases List.mem_cons.mp hg with he | hin
      · subst he
        exact Or.inl (List.mem_cons_self _ _)
      · exact Or.inl (List.mem_cons_of_mem _ (List.mem_map_of_mem _ hin))
    · rw [if_neg ht] at hg
      rcases List.mem_cons.mp hg with he | hin
      · subst he
        exact Or.inl (List.mem_cons_self _ _)
      · rcases ih g hin with h | h
        · exact Or.inl (List.mem_cons_of_mem _ h)
        · exact Or.inr h

theorem primOf_buildGroupsAux :
    ∀ (ms : List RawMatch) (gs : List MatchGroup),
      ∀ g ∈ ms.foldl addToGroups gs, primOf g ∈ gs.map primOf ∨ primOf g ∈ ms := by
  intro ms
  induction ms with
  | nil =>
    intro gs g hg
    exact Or.inl (List.mem_map_of_mem _ hg)
  | cons m ms ih =>
    intro gs g hg
    rw [List.foldl_cons] at hg
    rcases ih (addToGroups gs m) g hg with h | h
    · obtain ⟨g2, hg2, he⟩ := List.mem_map.mp h
      rcases primOf_addToGroups gs m g2 hg2 with h2 | h2
      · rw [← he]
        exact Or.inl h2
      · rw [← he, h2]
        exact Or.inr (List.mem_cons_self _ _)
    · exact Or.inr (List.mem_cons_of_mem _ h)

theorem addToGroups_join (gs : List MatchGroup) (m : RawMatch) :
    ((addToGroups gs m).map MatchGroup.overlapping).flatten.Perm
      (m :: (gs.map MatchGroup.overlapping).join) := by
  induction gs with
  | nil => simp [addToGroups, mkGroup]
  | cons g gs ih =>
    rw [addToGroups]
    by_cases ht : groupTest m g = true
    · rw [if_pos ht]
      show ((g.overlapping ++ [m]) ++ (gs.map MatchGroup.overlapping).flatten).Perm _
      rw [List.append_assoc]
      exact List.perm_middle
    · rw [if_neg ht]
      show (g.overlapping ++ ((addToGroups gs m).map MatchGroup.overlapping).flatten).Perm
        (m :: (g.overlapping ++ (gs.map MatchGroup.overlapping).flatten))
      refine ((ih.append_left g.overlapping).trans ?_)
      exact List.perm_middle

theorem buildGroups_join :
    ∀ (ms : List RawMatch) (gs : List MatchGroup),
      ((ms.foldl addToGroups gs).map MatchGroup.overlapping).flatten.Perm
        ((gs.map MatchGroup.overlapping).flatten ++ ms) := by
  intro ms
  induction ms with
  | nil => intro gs; simp
  | cons m ms ih =>
    intro gs
    rw [List.foldl_cons]
    refine (ih (addToGroups gs m)).trans ?_
    refine ((addToGroups_join gs m).append_right ms).trans ?_
    exact List.perm_middle.symm

/-- **C2 counterexample.** Transitivity fails on the code. For the mapping
`{"abcde": 50, "efgh": 60, "hi": 70}` and the unit text `"abcdefghi"` the
scan yields `abcde@0`, `efgh@4`, `hi@7` (already sorted). `abcde` overlaps
`efgh` and `efgh` overlaps `hi` (last two conjuncts, the spec's interval
notion), yet grouping compares each match only against a group's primary
span, so `efgh@4` joins the group whose primary span is `[0,5)` while
`hi@7` starts a new group: the three matches do not end up in one group.
Moreover position 5 is inside `efgh`'s span but inside neither group span
(`[0,5)` and `[7,9)`), so the union of group spans does not cover the union
of match spans. -/
theorem claim_C2_counterexample :
    findMatches false
        [("abcde".toList, 50), ("efgh".toList, 60), ("hi".toList, 70)]
        "abcdefghi".toList =
      some [⟨0, 5, "abcde".toList, 50⟩, ⟨4, 4, "efgh".toList, 60⟩,
        ⟨7, 2, "hi".toList, 70⟩] ∧
    buildGroups (sortMatches [⟨0, 5, "abcde".toList, 50⟩,
        ⟨4, 4, "efgh".toList, 60⟩, ⟨7, 2, "hi".toList, 70⟩]) =
      [⟨0, 5, "abcde".toList, 50,
          [⟨0, 5, "abcde".toList, 50⟩, ⟨4, 4, "efgh".toList, 60⟩]⟩,
        ⟨7, 2, "hi".toList, 70, [⟨7, 2, "hi".toList, 70⟩]⟩] ∧
    rawOverlap ⟨0, 5, "abcde".toList, 50⟩ ⟨4, 4, "efgh".toList, 60⟩ = true ∧
    rawOverlap ⟨4, 4, "efgh".toList, 60⟩ ⟨7, 2, "hi".toList, 70⟩ = true ∧
    coveredBy ⟨4, 4, "efgh".toList, 60⟩ 5 = true ∧
    coveredBy ⟨0, 5, "abcde".toList, 50⟩ 5 = false ∧
    coveredBy ⟨7, 2, "hi".toList, 70⟩ 5 = false :=
  ⟨rfl, rfl, rfl, rfl, rfl, rfl, rfl⟩

/-- **C2 (amended).** What the grouping loop does guarantee: every RawMatch
is placed in exactly one group — the concatenation of the groups' member
lists is a permutation of the input (first conjunct) — and, for an input
sorted by ascending start as the pipeline produces, every group consists of
its primary (the group-creating match, heading its member list) followed by
members whose start positions lie inside the primary's span (second
conjunct). Grouping is, however, not transitive: a match is compared only
against each group's primary span, so a chain A–B–C in which C overlaps
only B splits into separate groups, and the union of the groups' primary
spans need not cover the union of the match spans (see the
counterexample). -/
theorem claim_C2_amended_grouping :
    (∀ ms : List RawMatch,
      ((buildGroups ms).map MatchGroup.overlapping).flatten.Perm ms) ∧
    (∀ ms : List RawMatch, List.Pairwise (fun a b => a.index ≤ b.index) ms →
      ∀ g ∈ buildGroups ms, ∃ tl, g.overlapping = primOf g :: tl ∧
        ∀ m2 ∈ tl, g.index ≤ m2.index ∧ m2.index < g.index + g.length) := by
  constructor
  · intro ms
    have h := buildGroups_join ms []
    simpa using h
  · intro ms hsort g hg
    refine buildGroups_structure ms [] hsort ?_ ?_ g hg
    · intro g2 hg2
      cases hg2
    · intro g2 hg2
      cases hg2

/-- **C2 witness.** The amended structure statement applied to the sorted
match list of the counterexample text. -/
theorem claim_C2_witness :
    ∀ g ∈ buildGroups [⟨0, 5, "abcde".toList, (50 : ℚ)⟩,
        ⟨4, 4, "efgh".toList, 60⟩, ⟨7, 2, "hi".toList, 70⟩],
      ∃ tl, g.overlapping = primOf g :: tl ∧
        ∀ m2 ∈ tl, g.index ≤ m2.index ∧ m2.index < g.index + g.length :=
  claim_C2_amended_grouping.2
    [⟨0, 5, "abcde".toList, (50 : ℚ)⟩, ⟨4, 4, "efgh".toList, 60⟩,
      ⟨7, 2, "hi".toList, 70⟩]
    (by decide)

/-! ## Renderer lemmas -/

theorem flattenSegs_cons (x : Seg) (xs : List Seg) :
    flattenSegs (x :: xs) = segText x ++ flattenSegs xs := rfl

theorem flattenSegs_append (a b : List Seg) :
    flattenSegs (a ++ b) = flattenSegs a ++ flattenSegs b := by
  induction a with
  | nil => rfl
  | cons x xs ih =>
    rw [List.cons_append, flattenSegs_cons, flattenSegs_cons, ih,
      List.append_assoc]

theorem jsSubstring_append_drop (t : List Char) (a b : Nat) (h1 : a ≤ b) :
    jsSubstring t a b ++ t.drop b = t.drop a := by
  have h3 : (t.drop a).drop (b - a) = t.drop b := by
    rw [List.drop_drop]
    congr 1
    omega
  rw [jsSubstring, ← h3]
  exact List.take_append_drop _ _

theorem renderFrom_flatten (t : List Char) :
    ∀ (gs : List MatchGroup) (last : Nat),
      (∀ g ∈ gs, occursAt t g.word g.index = true ∧ g.length = g.word.length) →
      (∀ g ∈ gs, last ≤ g.index) →
      List.Pairwise (fun g h => g.index + g.length ≤ h.index) gs →
      flattenSegs (renderFrom t last gs) = t.drop last := by
  intro gs
  induction gs with
  | nil =>
    intro last _ _ _
    rw [renderFrom]
    by_cases h : last < t.length
    · rw [if_pos h]
      rw [flattenSegs_cons]
      simp [flattenSegs, segText]
    · rw [if_neg h]
      rw [(List.drop_eq_nil_iff_le).mpr (by omega)]
      rfl
  | cons g gs ih =>
    intro last hocc hlast hdisj
    rw [renderFrom]
    have hg := hocc g (List.mem_cons_self _ _)
    have hword : jsSubstring t g.index (g.index + g.length) = g.word := by
      rw [hg.2]
      exact occursAt_slice hg.1
    have hdisj2 := List.pairwise_cons.mp hdisj
    have hrec : flattenSegs (renderFrom t (g.index + g.length) gs) =
        t.drop (g.index + g.length) :=
      ih (g.index + g.length)
        (fun g2 hg2 => hocc g2 (List.mem_cons_of_mem _ hg2))
        (fun g2 hg2 => hdisj2.1 g2 hg2) hdisj2.2
    rw [flattenSegs_append, flattenSegs_cons, hrec]
    have hmid : segText (Seg.highlight g) ++ t.drop (g.index + g.length) =
        t.drop g.index := by
      rw [segText, ← hword]
      exact jsSubstring_append_drop t _ _ (Nat.le_add_right _ _)
    rw [hmid]
    by_cases hlt : last < g.index
    · rw [if_pos hlt]
      have hpl : flattenSegs [Seg.plain (jsSubstring t last g.index)] =
          jsSubstring t last g.index := by
        simp [flattenSegs, segText]
      rw [hpl]
      exact jsSubstring_append_drop t _ _ (Nat.le_of_lt hlt)
    · rw [if_neg hlt]
      have hle : last = g.index := by
        have := hlast g (List.mem_cons_self _ _)
        omega
      rw [show flattenSegs ([] : List Seg) = [] from rfl, List.nil_append, hle]

/-- Facts about the grouped pipeline output of one text unit: every group's
primary is a genuine occurrence, group spans are ordered and disjoint, and
every occurrence of a mapping word starts inside some group's span. -/
theorem pipeline_facts {map : WordMap} {t : List Char} {ms : List RawMatch}
    (h : findMatches false map t = some ms) :
    (∀ g ∈ buildGroups (sortMatches ms),
      occursAt t g.word g.index = true ∧ g.length = g.word.length) ∧
    List.Pairwise (fun g g2 => g.index + g.length ≤ g2.index)
      (buildGroups (sortMatches ms)) ∧
    (∀ j (p : List Char × ℚ), p ∈ map → occursAt t p.1 j = true →
      ∃ g ∈ buildGroups (sortMatches ms),
        g.index ≤ j ∧ j < g.index + g.length) := by
  have hperm : (sortMatches ms).Perm ms := List.perm_insertionSort matchLE ms
  have hsort : List.Pairwise (fun a b => a.index ≤ b.index) (sortMatches ms) := by
    have hs := List.sorted_insertionSort matchLE ms
    exact List.Pairwise.imp
      (fun hab => by
        rcases hab with h1 | ⟨h1, _⟩
        · exact Nat.le_of_lt h1
        · exact Nat.le_of_eq h1) hs
  have hnn := findMatches_words_ne_nil h
  have hsound := findMatches_sound h
  have hpos : ∀ m ∈ sortMatches ms, 0 < m.length := by
    intro m hm
    obtain ⟨_, hlen, sc, hsc⟩ := hsound m (hperm.mem_iff.mp hm)
    have hw : m.word ≠ [] := hnn (m.word, sc) hsc
    rw [hlen]
    exact List.length_pos.mpr hw
  have hcd := buildGroupsAux_cover_disj (sortMatches ms) []
    hsort (fun g hg => absurd hg (List.not_mem_nil g)) (by simp) hpos
  refine ⟨?_, ?_, ?_⟩
  · intro g hg
    rcases primOf_buildGroupsAux (sortMatches ms) [] g hg with h2 | h2
    · simp at h2
    · obtain ⟨hocc, hlen, _⟩ := hsound (primOf g) (hperm.mem_iff.mp h2)
      exact ⟨hocc, hlen⟩
  · exact (List.pairwise_map.mp hcd.1)
  · intro j p hp hocc
    have hmem : (⟨j, p.1.length, p.1, p.2⟩ : RawMatch) ∈ sortMatches ms :=
      hperm.mem_iff.mpr (findMatches_complete h p hp j hocc)
    obtain ⟨q, hq, hq1, hq2⟩ := hcd.2 _ hmem
    obtain ⟨g, hg, he⟩ := List.mem_map.mp hq
    refine ⟨g, hg, ?_, ?_⟩
    · rw [← congrArg Prod.fst he] at hq1
      exact hq1
    · rw [← congrArg Prod.fst he, ← congrArg Prod.snd he] at hq2
      exact hq2

/-- **C8.** Character preservation and per-unit atomicity of the DOM
renderer: whenever the pipeline replaces a unit (`some (some segs)`), the
concatenation of the fragment's plain-text segments and the highlight
spans' displayed text equals the unit's original string; and a non-blank
unit whose scan finds no matches is left untouched (`some none`). -/
theorem claim_C8_render_preserves_text :
    (∀ (map : WordMap) (t : List Char) (segs : List Seg),
      processUnitMain map t = some (some segs) → flattenSegs segs = t) ∧
    (∀ (map : WordMap) (t : List Char),
      jsBlank t = false → findMatches false map t = some [] →
      processUnitMain map t = some none) := by
  constructor
  · intro map t segs h
    rw [processUnitMain] at h
    by_cases hb : jsBlank t = true
    · rw [if_pos hb] at h
      exact absurd (Option.some.inj h) (by simp)
    · rw [if_neg hb] at h
      cases hms : findMatches false map t with
      | none => rw [hms] at h; cases h
      | some ms =>
        rw [hms] at h
        rw [Option.map_some'] at h
        have h2 := Option.some.inj h
        by_cases hms0 : ms = []
        · rw [if_pos hms0] at h2; cases h2
        · rw [if_neg hms0] at h2
          by_cases hfin : buildGroups (sortMatches ms) = []
          · rw [if_pos hfin] at h2; cases h2
          · rw [if_neg hfin] at h2
            have h3 := Option.some.inj h2
            obtain ⟨ha, hb2, _⟩ := pipeline_facts hms
            have h4 := renderFrom_flatten t (buildGroups (sortMatches ms)) 0
              ha (fun g _ => Nat.zero_le _) hb2
            rw [List.drop_zero] at h4
            rw [← h3]
            exact h4
  · intro map t hb h
    rw [processUnitMain, if_neg (by rw [hb]; exact Bool.false_ne_true), h,
      Option.map_some', if_pos rfl]

/-- **C8 witness.** Preservation at a concrete unit: mapping `{"ab": 50}`,
text `"xaby"`, replaced by `[plain "x", highlight "ab", plain "y"]`. -/
theorem claim_C8_witness :
    flattenSegs [Seg.plain "x".toList,
      Seg.highlight ⟨1, 2, "ab".toList, 50, [⟨1, 2, "ab".toList, 50⟩]⟩,
      Seg.plain "y".toList] = "xaby".toList :=
  claim_C8_render_preserves_text.1 [("ab".toList, 50)] "xaby".toList
    [Seg.plain "x".toList,
      Seg.highlight ⟨1, 2, "ab".toList, 50, [⟨1, 2, "ab".toList, 50⟩]⟩,
      Seg.plain "y".toList] rfl

/-! ## Idempotence lemmas (for C4) -/

theorem occursAt_drop (t w : List Char) (a i : Nat) :
    occursAt (t.drop a) w i = occursAt t w (i + a) := by
  rw [occursAt, occursAt, List.drop_drop, Nat.add_comm a i]

theorem occursAt_take {u w : List Char} {n i : Nat} (hw : w ≠ [])
    (h : occursAt (u.take n) w i = true) :
    occursAt u w i = true ∧ i + w.length ≤ n := by
  rw [occursAt, List.drop_take, List.take_take] at h
  have h2 := of_decide_eq_true h
  have h3 := congrArg List.length h2
  simp only [List.length_take, List.length_drop] at h3
  have h4 : w.length ≠ 0 := fun h0 => hw (List.eq_nil_of_length_eq_zero h0)
  have h6 : i ≤ u.length := by
    by_contra h7
    have hnil : u.drop i = [] := List.drop_eq_nil_of_le (by omega)
    rw [hnil] at h2
    simp at h2
    exact hw h2
  have hmin : min w.length (n - i) = w.length := by omega
  rw [hmin] at h2
  constructor
  · rw [occursAt]
    exact decide_eq_true h2
  · omega

theorem renderFrom_plain_no_occ (t : List Char) :
    ∀ (gs : List MatchGroup) (last : Nat) (w : List Char), w ≠ [] →
      (∀ j, last ≤ j → occursAt t w j = true →
        ∃ g ∈ gs, g.index ≤ j ∧ j < g.index + g.length) →
      (∀ g ∈ gs, last ≤ g.index) →
      List.Pairwise (fun g g2 => g.index + g.length ≤ g2.index) gs →
      ∀ s, Seg.plain s ∈ renderFrom t last gs →
        ∀ i, occursAt s w i = false := by
  intro gs
  induction gs with
  | nil =>
    intro last w hw hcov _ _ s hs i
    rw [renderFrom] at hs
    by_cases hlt : last < t.length
    · rw [if_pos hlt] at hs
      have hs2 : s = t.drop last := by simpa using hs
      subst hs2
      cases hocc : occursAt (t.drop last) w i with
      | false => rfl
      | true =>
        rw [occursAt_drop] at hocc
        obtain ⟨g, hg, _⟩ := hcov (i + last) (by omega) hocc
        exact absurd hg (List.not_mem_nil g)
    · rw [if_neg hlt] at hs
      exact absurd hs (List.not_mem_nil _)
  | cons g gs ih =>
    intro last w hw hcov hlast hdisj s hs i
    rw [renderFrom] at hs
    have hdisj2 := List.pairwise_cons.mp hdisj
    have hlg : last ≤ g.index := hlast g (List.mem_cons_self _ _)
    rcases List.mem_append.mp hs with hs1 | hs1
    · by_cases hlt : last < g.index
      · rw [if_pos hlt] at hs1
        have hs2 : s = jsSubstring t last g.index := by simpa using hs1
        subst hs2
        cases hocc : occursAt (jsSubstring t last g.index) w i with
        | false => rfl
        | true =>
          exfalso
          rw [jsSubstring] at hocc
          obtain ⟨hocc2, hfit⟩ := occursAt_take hw hocc
          rw [occursAt_drop] at hocc2
          have hwpos : 0 < w.length := List.length_pos.mpr hw
          have hjlt : i + last < g.index := by omega
          obtain ⟨g2, hg2, hb1, _⟩ := hcov (i + last) (by omega) hocc2
          rcases List.mem_cons.mp hg2 with he | hin
          · rw [he] at hb1
            omega
          · have := hdisj2.1 g2 hin
            omega
      · rw [if_neg hlt] at hs1
        exact absurd hs1 (List.not_mem_nil _)
    · rcases List.mem_cons.mp hs1 with he | hin
      · cases he
      · refine ih (g.index + g.length) w hw ?_ ?_ hdisj2.2 s hin i
        · intro j hj hocc
          obtain ⟨g2, hg2, hb1, hb2⟩ := hcov j (by omega) hocc
          rcases List.mem_cons.mp hg2 with he2 | hin2
          · rw [he2] at hb2
            omega
          · exact ⟨g2, hin2, hb1, hb2⟩
        · intro g2 hg2
          exact hdisj2.1 g2 hg2

/-- **C4.** Rendering is idempotent at the text-unit level: whenever a pass
replaces a unit, every node of the replacement fragment either carries the
`anki-highlight` marker — and is therefore excluded from the next pass's
tree walk by the walker's filter — or is a plain text node containing no
full occurrence of any mapping key, so a second pass with the same mapping
and no intervening mutation scans it and finds nothing (`some []`), changing
nothing. -/
theorem claim_C4_render_idempotent :
    ∀ (map : WordMap) (t : List Char) (segs : List Seg),
      processUnitMain map t = some (some segs) →
      ∀ s ∈ segs, marked s = true ∨
        findMatches false map (segText s) = some [] := by
  intro map t segs h s hs
  rw [processUnitMain] at h
  by_cases hb : jsBlank t = true
  · rw [if_pos hb] at h
    exact absurd (Option.some.inj h) (by simp)
  · rw [if_neg hb] at h
    cases hms : findMatches false map t with
    | none => rw [hms] at h; cases h
    | some ms =>
      rw [hms, Option.map_some'] at h
      have h2 := Option.some.inj h
      by_cases hms0 : ms = []
      · rw [if_pos hms0] at h2; cases h2
      · rw [if_neg hms0] at h2
        by_cases hfin : buildGroups (sortMatches ms) = []
        · rw [if_pos hfin] at h2; cases h2
        · rw [if_neg hfin] at h2
          have h3 := Option.some.inj h2
          obtain ⟨_, hdisj, hcov⟩ := pipeline_facts hms
          rw [← h3] at hs
          cases s with
          | highlight g => exact Or.inl rfl
          | plain str =>
            refine Or.inr ?_
            have hnn := findMatches_words_ne_nil hms
            have hsome := findMatches_isSome false map str hnn
            cases hout : findMatches false map str with
            | none =>
              rw [hout] at hsome
              cases hsome
            | some out =>
              have hempty : out = [] := by
                rw [List.eq_nil_iff_forall_not_mem]
                intro m hm
                obtain ⟨hocc, _, sc, hsc⟩ := findMatches_sound hout m hm
                have hwne : m.word ≠ [] := hnn (m.word, sc) hsc
                have hno := renderFrom_plain_no_occ t
                  (buildGroups (sortMatches ms)) 0 m.word hwne
                  (fun j _ hoccj => hcov j (m.word, sc) hsc hoccj)
                  (fun g _ => Nat.zero_le _) hdisj str hs m.index
                rw [hno] at hocc
                cases hocc
              rw [hempty] at hout
              exact hout

/-- **C4 witness.** The idempotence statement at a concrete unit: mapping
`{"ab": 50}` and text `"xaby"` produce `[plain "x", highlight "ab",
plain "y"]`; the highlight is marked, and rescanning either plain segment
finds no matches. -/
theorem claim_C4_witness :
    (marked (Seg.plain "x".toList) = true ∨
      findMatches false [("ab".toList, (50 : ℚ))]
        (segText (Seg.plain "x".toList)) = some []) ∧
    (marked (Seg.highlight ⟨1, 2, "ab".toList, 50,
        [⟨1, 2, "ab".toList, 50⟩]⟩) = true ∨
      findMatches false [("ab".toList, (50 : ℚ))]
        (segText (Seg.highlight ⟨1, 2, "ab".toList, 50,
          [⟨1, 2, "ab".toList, 50⟩]⟩)) = some []) ∧
    (marked (Seg.plain "y".toList) = true ∨
      findMatches false [("ab".toList, (50 : ℚ))]
        (segText (Seg.plain "y".toList)) = some []) :=
  ⟨claim_C4_render_idempotent [("ab".toList, 50)] "xaby".toList
      [Seg.plain "x".toList,
        Seg.highlight ⟨1, 2, "ab".toList, 50, [⟨1, 2, "ab".toList, 50⟩]⟩,
        Seg.plain "y".toList] rfl _ (List.mem_cons_self _ _),
    claim_C4_render_idempotent [("ab".toList, 50)] "xaby".toList
      [Seg.plain "x".toList,
        Seg.highlight ⟨1, 2, "ab".toList, 50, [⟨1, 2, "ab".toList, 50⟩]⟩,
        Seg.plain "y".toList] rfl _
      (List.mem_cons_of_mem _ (List.mem_cons_self _ _)),
    claim_C4_render_idempotent [("ab".toList, 50)] "xaby".toList
      [Seg.plain "x".toList,
        Seg.highlight ⟨1, 2, "ab".toList, 50, [⟨1, 2, "ab".toList, 50⟩]⟩,
        Seg.plain "y".toList] rfl _
      (List.mem_cons_of_mem _ (List.mem_cons_of_mem _
        (List.mem_cons_self _ _)))⟩
